import Mathlib

/-!
# The `/api/generate` handler of `server.js`

A shallow embedding of the request handler: prompt validation, text
extraction from the upstream payload, code-fence cleaning, JSON parsing
with the brace-span fallback, alias resolution and the response.

JavaScript strings are sequences of UTF-16 code units, written here as
lists of natural numbers; `undefined` is `none` of an `Option`.
-/

set_option exponentiation.threshold 4096

namespace Rebuild

/-! ## Strings -/

/-- A JavaScript string, as its UTF-16 code units. -/
abbrev JSString := List Nat

/-- The code units of a literal (used with ASCII text only). -/
def lit (s : String) : JSString := s.toList.map Char.toNat

/-- The class `\s` of a regular expression, which is also what
`String.prototype.trim` removes: WhiteSpace and LineTerminator of ECMA-262
(TAB, LF, VT, FF, CR, SP, NBSP, U+1680, U+2000 to U+200A, U+2028, U+2029,
U+202F, U+205F, U+3000, U+FEFF). -/
def isWhiteSpace (c : Nat) : Bool :=
  c == 9 || c == 10 || c == 11 || c == 12 || c == 13 || c == 32 || c == 160 ||
  c == 5760 || (decide (8192 ≤ c) && decide (c ≤ 8202)) || c == 8232 || c == 8233 ||
  c == 8239 || c == 8287 || c == 12288 || c == 65279

/-- The method `String.prototype.trim`. -/
def trim (t : JSString) : JSString :=
  (t.dropWhile isWhiteSpace).rdropWhile isWhiteSpace

/-- Three backticks. -/
def fence : JSString := [96, 96, 96]

/-- The word `json`. -/
def jsonTag : JSString := [106, 115, 111, 110]

/-- The group `(?:json)?` at the head of `t`: greedy, so the tag is consumed when
it is there (what follows, `\s*`, matches anything, so there is no backtracking). -/
def dropJsonTag (t : JSString) : JSString :=
  if jsonTag.isPrefixOf t then t.drop 4 else t

/-- The call `text.replace(/^```(?:json)?\s*/, "")`: the pattern is anchored at the
start of the text, so it matches there or nowhere. -/
def removeOpeningFence (t : JSString) : JSString :=
  if fence.isPrefixOf t then (dropJsonTag (t.drop 3)).dropWhile isWhiteSpace else t

/-- The call `text.replace(/```$/, "")`: without the `m` flag `$` is the end of the
text, so the only possible match is the last three code units. -/
def removeClosingFence (t : JSString) : JSString :=
  if fence.isSuffixOf t then t.rdrop 3 else t

/-- Lines 71 and 74 of `server.js` on a string:
`text = text.trim(); text = text.replace(...).replace(...).trim()`. -/
def cleanText (t : JSString) : JSString :=
  trim (removeClosingFence (removeOpeningFence (trim t)))

/-- The method `String.prototype.indexOf` for a single code unit; `none` is `-1`. -/
def indexOf (c : Nat) : JSString → Option Nat
  | [] => none
  | d :: t => if d = c then some 0 else (indexOf c t).map (· + 1)

/-- The method `String.prototype.lastIndexOf` for a single code unit; `none` is `-1`. -/
def lastIndexOf (c : Nat) (t : JSString) : Option Nat :=
  (indexOf c t.reverse).map (fun i => t.length - 1 - i)

/-- The method `String.prototype.slice(s, e)` for indices within the text. -/
def slice (t : JSString) (s e : Nat) : JSString := (t.take e).drop s

/-! ## Decimal numerals -/

/-- A decimal digit's code unit. -/
def isDigit (c : Nat) : Bool := decide (48 ≤ c) && decide (c ≤ 57)

/-- Worker of `natDigits`: the first argument bounds the number of steps. -/
def natDigitsAux : Nat → Nat → List Nat → List Nat
  | 0, _, acc => acc
  | f + 1, n, acc => if n < 10 then n :: acc else natDigitsAux f (n / 10) (n % 10 :: acc)

/-- The decimal digits of a natural number, most significant first. -/
def natDigits (n : Nat) : List Nat := natDigitsAux (n + 1) n []

/-- The number a list of decimal digits (most significant first) denotes. -/
def digitsVal (ds : List Nat) : Nat := ds.foldl (fun a d => 10 * a + d) 0

/-- The decimal numeral of a natural number, as a string. -/
def natToString (n : Nat) : JSString := (natDigits n).map (· + 48)

/-- An array index of ECMA-262: the key is the canonical decimal numeral of an
integer below `2^32 - 1`. -/
def arrayIndex? (k : JSString) : Option Nat :=
  if k.all isDigit && !k.isEmpty && (k == [48] || k.head? != some 48) then
    let n := digitsVal (k.map (· - 48))
    if n < 4294967295 then some n else none
  else none

/-! ## Values -/

/-- A Number value as the handler can observe it. `zero` is `+0` or `-0` (both are
falsy and print as `0`); `fin neg digits n` is the non-zero finite number
`± 0.d₁d₂…dₖ × 10ⁿ` with `digits` free of leading and trailing zeros, which is the
decomposition `Number::toString` prints from (for a binary64 value, its shortest
digits); `inf` is an infinity. The handler does no arithmetic: it tests a number for
zero and prints it. -/
inductive JNum where
  | zero
  | fin (neg : Bool) (digits : List Nat) (n : Int)
  | inf (neg : Bool)
deriving DecidableEq, Repr

/-- A JavaScript value that `JSON.parse` can produce. An object lists its
properties in the order of `Object.keys`. -/
inductive JVal where
  | null
  | bool (b : Bool)
  | num (x : JNum)
  | str (s : JSString)
  | arr (xs : List JVal)
  | obj (kvs : List (JSString × JVal))
deriving Repr

/-- The abstract operation ToBoolean. -/
def truthy : JVal → Bool
  | .null => false
  | .bool b => b
  | .num .zero => false
  | .num _ => true
  | .str s => !s.isEmpty
  | .arr _ => true
  | .obj _ => true

/-- ToBoolean of a value that may be `undefined`. -/
def truthy? : Option JVal → Bool
  | none => false
  | some v => truthy v

/-- The expression `a || b`. -/
def jsOr (a b : Option JVal) : Option JVal := if truthy? a then a else b

/-- The expression `a || b` with `b` a value that is not `undefined`. -/
def jsOrElse (a : Option JVal) (b : JVal) : JVal :=
  match a with
  | some v => if truthy v then v else b
  | none => b

/-- Property read `v[k]` on a value other than `null`, for a key that no prototype
defines (every key the handler reads is such a key). -/
def getProp (v : JVal) (k : JSString) : Option JVal :=
  match v with
  | .obj kvs => kvs.lookup k
  | .arr xs => match arrayIndex? k with
    | some i => xs[i]?
    | none => none
  | .str s => match arrayIndex? k with
    | some i => (s[i]?).map (fun c => JVal.str [c])
    | none => none
  | _ => none

/-- Optional chaining `v?.[k]`: `undefined` when `v` is `undefined` or `null`. -/
def getOpt (v : Option JVal) (k : JSString) : Option JVal :=
  match v with
  | none => none
  | some .null => none
  | some w => getProp w k

/-- The function `Object.keys` on a value other than `null`. -/
def objectKeys : JVal → List JSString
  | .obj kvs => kvs.map Prod.fst
  | .arr xs => (List.range xs.length).map natToString
  | .str s => (List.range s.length).map natToString
  | _ => []


/-! ## Conversion to text -/

/-- A run of the digit `0`. -/
def zeros (n : Nat) : JSString := List.replicate n 48

/-- The code units of a list of digits. -/
def digitChars (ds : List Nat) : JSString := ds.map (· + 48)

/-- The operation `Number::toString` (radix 10) of ECMA-262, from the decomposition
a `JNum` carries (`k` digits, decimal point after the `n`th). -/
def numberToString : JNum → JSString
  | .zero => [48]
  | .inf neg => (if neg then [45] else []) ++ lit "Infinity"
  | .fin neg ds n =>
    let k : Int := ds.length
    let body : JSString :=
      if k ≤ n ∧ n ≤ 21 then digitChars ds ++ zeros (n - k).toNat
      else if 0 < n ∧ n ≤ 21 then
        digitChars (ds.take n.toNat) ++ [46] ++ digitChars (ds.drop n.toNat)
      else if -6 < n ∧ n ≤ 0 then [48, 46] ++ zeros (-n).toNat ++ digitChars ds
      else
        let e : Int := n - 1
        let ex : JSString := (if 0 ≤ e then [43] else [45]) ++ natToString e.natAbs
        match ds with
        | [] => []
        | [d] => [d + 48, 101] ++ ex
        | d :: rest => [d + 48, 46] ++ digitChars rest ++ [101] ++ ex
    (if neg then [45] else []) ++ body

mutual
/-- The abstract operation ToString, as `"" + v` applies it; `none` is the TypeError
that an object with an own `toString` property raises (a parsed value is never
callable). An array is joined with commas, `null` elements printing as nothing. -/
def toStr : JVal → Option JSString
  | .null => some (lit "null")
  | .bool true => some (lit "true")
  | .bool false => some (lit "false")
  | .num x => some (numberToString x)
  | .str s => some s
  | .arr [] => some []
  | .arr (.null :: xs) => joinTail xs
  | .arr (x :: xs) =>
    match toStr x, joinTail xs with
    | some a, some b => some (a ++ b)
    | _, _ => none
  | .obj kvs => if kvs.any (fun p => p.1 == lit "toString") then none
      else some (lit "[object Object]")
/-- The elements after the first of `Array.prototype.join`, a comma before each. -/
def joinTail : List JVal → Option JSString
  | [] => some []
  | .null :: xs => (joinTail xs).map (fun b => 44 :: b)
  | x :: xs =>
    match toStr x, joinTail xs with
    | some a, some b => some (44 :: a ++ b)
    | _, _ => none
end

/-- A lowercase hexadecimal digit. -/
def hexDigit (d : Nat) : Nat := if d < 10 then 48 + d else 87 + d

/-- The escape `\uXXXX` of a code unit. -/
def unicodeEscape (c : Nat) : JSString :=
  [92, 117, hexDigit (c / 4096 % 16), hexDigit (c / 256 % 16), hexDigit (c / 16 % 16),
    hexDigit (c % 16)]

/-- A leading surrogate. -/
def isHighSurrogate (c : Nat) : Bool := decide (55296 ≤ c) && decide (c ≤ 56319)

/-- A trailing surrogate. -/
def isLowSurrogate (c : Nat) : Bool := decide (56320 ≤ c) && decide (c ≤ 57343)

/-- The inside of `QuoteJSONString`: the seven short escapes, `\uXXXX` for other
control characters and for lone surrogates, everything else as it is. -/
def quoteChars : JSString → JSString
  | [] => []
  | c :: rest =>
    if c = 8 then 92 :: 98 :: quoteChars rest
    else if c = 9 then 92 :: 116 :: quoteChars rest
    else if c = 10 then 92 :: 110 :: quoteChars rest
    else if c = 12 then 92 :: 102 :: quoteChars rest
    else if c = 13 then 92 :: 114 :: quoteChars rest
    else if c = 34 then 92 :: 34 :: quoteChars rest
    else if c = 92 then 92 :: 92 :: quoteChars rest
    else if c < 32 then unicodeEscape c ++ quoteChars rest
    else if isHighSurrogate c then
      match rest with
      | [] => unicodeEscape c
      | d :: rest2 =>
        if isLowSurrogate d then c :: d :: quoteChars rest2
        else unicodeEscape c ++ quoteChars (d :: rest2)
    else if isLowSurrogate c then unicodeEscape c ++ quoteChars rest
    else c :: quoteChars rest

/-- The operation `QuoteJSONString`. -/
def quoteJSONString (s : JSString) : JSString := 34 :: quoteChars s ++ [34]

mutual
/-- The function `JSON.stringify` with one argument, on a parsed value: never
`undefined`, never an exception. A non-finite number prints as `null`. -/
def jsonStringify : JVal → JSString
  | .null => lit "null"
  | .bool true => lit "true"
  | .bool false => lit "false"
  | .num (.inf _) => lit "null"
  | .num x => numberToString x
  | .str s => quoteJSONString s
  | .arr [] => [91, 93]
  | .arr (x :: xs) => 91 :: jsonStringify x ++ stringifyTail xs ++ [93]
  | .obj [] => [123, 125]
  | .obj ((k, v) :: kvs) =>
    123 :: quoteJSONString k ++ 58 :: jsonStringify v ++ stringifyMembers kvs ++ [125]
/-- The elements of an array after the first, a comma before each. -/
def stringifyTail : List JVal → JSString
  | [] => []
  | x :: xs => 44 :: jsonStringify x ++ stringifyTail xs
/-- The properties of an object after the first, a comma before each. -/
def stringifyMembers : List (JSString × JVal) → JSString
  | [] => []
  | (k, v) :: kvs => 44 :: quoteJSONString k ++ 58 :: jsonStringify v ++ stringifyMembers kvs
end

/-! ## `JSON.parse` -/

/-- JSON insignificant whitespace: space, TAB, LF, CR. -/
def isJsonWs (c : Nat) : Bool := c == 32 || c == 9 || c == 10 || c == 13

/-- Skip JSON whitespace. -/
def skipWs (t : JSString) : JSString := t.dropWhile isJsonWs

/-- The value of a hexadecimal digit, either case. -/
def hexVal (c : Nat) : Option Nat :=
  if 48 ≤ c ∧ c ≤ 57 then some (c - 48)
  else if 97 ≤ c ∧ c ≤ 102 then some (c - 87)
  else if 65 ≤ c ∧ c ≤ 70 then some (c - 55)
  else none

/-- The code unit a one-letter escape stands for. -/
def unescape (e : Nat) : Option Nat :=
  if e = 34 then some 34
  else if e = 92 then some 92
  else if e = 47 then some 47
  else if e = 98 then some 8
  else if e = 102 then some 12
  else if e = 110 then some 10
  else if e = 114 then some 13
  else if e = 116 then some 9
  else none

/-- Put a code unit in front of the string of a parse result. -/
def consChar (c : Nat) : Option (JSString × JSString) → Option (JSString × JSString)
  | some (s, rest) => some (c :: s, rest)
  | none => none

/-- The characters of a JSON string after its opening quote, up to and including the
closing quote: the string they denote and the text that follows. -/
def parseChars : JSString → Option (JSString × JSString)
  | [] => none
  | c :: rest =>
    if c = 34 then some ([], rest)
    else if c = 92 then
      match rest with
      | [] => none
      | e :: rest2 =>
        if e = 117 then
          match rest2 with
          | h1 :: h2 :: h3 :: h4 :: rest3 =>
            match hexVal h1, hexVal h2, hexVal h3, hexVal h4 with
            | some a, some b, some c, some d =>
              consChar (4096 * a + 256 * b + 16 * c + d) (parseChars rest3)
            | _, _, _, _ => none
          | _ => none
        else
          match unescape e with
          | some u => consChar u (parseChars rest2)
          | none => none
    else if c < 32 then none
    else consChar c (parseChars rest)

/-- The number `m × 10^e` rounds to zero in binary64: it is at most `2^-1075`. -/
def roundsToZero (m : Nat) (e : Int) : Bool :=
  decide (e < 0) && decide (m * 2 ^ 1075 ≤ 10 ^ (-e).toNat)

/-- The number `m × 10^e` rounds to an infinity in binary64: it is at least
`2^1024 - 2^970`. -/
def roundsToInf (m : Nat) (e : Int) : Bool :=
  if 0 ≤ e then decide (2 ^ 1024 - 2 ^ 970 ≤ m * 10 ^ e.toNat)
  else decide ((2 ^ 1024 - 2 ^ 970) * 10 ^ (-e).toNat ≤ m)

/-- The Number value of the decimal `± 0.d₁…dₖ × 10ⁿ`, for digits that start with a
non-zero digit. The rounding of the digits to binary64 is not carried out: the value
keeps the digits as written, which are the digits `Number::toString` prints back when
the literal is itself a printed number or has at most 15 significant digits; the two
roundings the handler can tell apart from the rest, to zero and to an infinity, are
decided exactly (the bounds `400` only spare the large powers). -/
def classify (neg : Bool) (ds : List Nat) (n : Int) : JNum :=
  let m := digitsVal ds
  let e : Int := n - ds.length
  if n < -400 then .zero
  else if 400 < n then .inf neg
  else if roundsToZero m e then .zero
  else if roundsToInf m e then .inf neg
  else .fin neg ds n

/-- The Number value of a JSON number literal with integer digits `ip`, fraction
digits `fp` and exponent `ex`. -/
def mkNumber (neg : Bool) (ip fp : List Nat) (ex : Int) : JNum :=
  let ds := (ip ++ fp).dropWhile (· == 0)
  if ds.isEmpty then .zero
  else classify neg (ds.rdropWhile (· == 0)) (ex + ip.length - ((ip ++ fp).length - ds.length : Nat))

/-- The leading decimal digits of a text, as numbers, and the text after them. -/
def spanDigits (t : JSString) : List Nat × JSString :=
  ((t.takeWhile isDigit).map (· - 48), t.dropWhile isDigit)

/-- A run of at least one digit at the head of a text. -/
def readDigits (t : JSString) : Option (List Nat × JSString) :=
  if (spanDigits t).1.isEmpty then none else some (spanDigits t)

/-- The exponent part of a number literal, if there is one: its value and the rest. -/
def parseExponent (t : JSString) : Option (Int × JSString) :=
  match t with
  | [] => some (0, t)
  | c :: r =>
    if c = 101 ∨ c = 69 then
      match r with
      | [] => none
      | s :: r2 =>
        if s = 43 then (readDigits r2).map (fun p => ((digitsVal p.1 : Int), p.2))
        else if s = 45 then (readDigits r2).map (fun p => (-(digitsVal p.1 : Int), p.2))
        else (readDigits r).map (fun p => ((digitsVal p.1 : Int), p.2))
    else some (0, t)

/-- The fraction part of a number literal, if there is one: its digits and the rest. -/
def parseFraction (t : JSString) : Option (List Nat × JSString) :=
  match t with
  | [] => some ([], t)
  | c :: r => if c = 46 then readDigits r else some ([], t)

/-- The integer part of a number literal: a single `0`, or digits that do not start
with `0`. -/
def parseInteger (t : JSString) : Option (List Nat × JSString) :=
  match t with
  | [] => none
  | c :: r => if c = 48 then some ([0], r) else readDigits t

/-- A JSON number literal at the head of a text, after its optional minus sign. -/
def parseUnsigned (neg : Bool) (t : JSString) : Option (JNum × JSString) :=
  match parseInteger t with
  | none => none
  | some (ip, r1) =>
    match parseFraction r1 with
    | none => none
    | some (fp, r2) =>
      match parseExponent r2 with
      | none => none
      | some (ex, r3) => some (mkNumber neg ip fp ex, r3)

/-- A JSON number literal at the head of a text. -/
def parseNumber (t : JSString) : Option (JNum × JSString) :=
  match t with
  | [] => none
  | c :: r => if c = 45 then parseUnsigned true r else parseUnsigned false t

/-- The position of an array-index key among the properties: before the first
property that is not an array index or has a larger index. -/
def insertIndexed (i : Nat) (k : JSString) (v : JVal) :
    List (JSString × JVal) → List (JSString × JVal)
  | [] => [(k, v)]
  | (k2, v2) :: kvs =>
    match arrayIndex? k2 with
    | some j => if j < i then (k2, v2) :: insertIndexed i k v kvs else (k, v) :: (k2, v2) :: kvs
    | none => (k, v) :: (k2, v2) :: kvs

/-- Replace the value of the property `k`, which stays where it is. -/
def replaceProp (k : JSString) (v : JVal) : List (JSString × JVal) → List (JSString × JVal)
  | [] => []
  | (k2, v2) :: kvs => if k2 = k then (k2, v) :: kvs else (k2, v2) :: replaceProp k v kvs

/-- Define the property `k` of an object under construction, as `JSON.parse` does
for each member in source order: a repeated key keeps its place and takes the new
value; a new array-index key goes among the array indices in ascending order, which
come first; any other new key goes last. -/
def setProp (kvs : List (JSString × JVal)) (k : JSString) (v : JVal) :
    List (JSString × JVal) :=
  if kvs.any (fun p => p.1 == k) then replaceProp k v kvs
  else
    match arrayIndex? k with
    | some i => insertIndexed i k v kvs
    | none => kvs ++ [(k, v)]

/-- The object that a list of members in source order defines. -/
def mkObject (members : List (JSString × JVal)) : JVal :=
  .obj (members.foldl (fun acc p => setProp acc p.1 p.2) [])

mutual
/-- A JSON value at the head of a text (whitespace before it already skipped): the
value and the text that follows. The first argument bounds the nesting and the
number of elements; `jsonParse` passes enough. -/
def parseValue : Nat → JSString → Option (JVal × JSString)
  | 0, _ => none
  | f + 1, t =>
    match t with
    | [] => none
    | c :: rest =>
      if c = 123 then
        match skipWs rest with
        | [] => none
        | d :: r =>
          if d = 125 then some (.obj [], r)
          else
            match parseMembers f (d :: r) with
            | some (ms, r2) => some (mkObject ms, r2)
            | none => none
      else if c = 91 then
        match skipWs rest with
        | [] => none
        | d :: r =>
          if d = 93 then some (.arr [], r)
          else
            match parseElements f (d :: r) with
            | some (xs, r2) => some (.arr xs, r2)
            | none => none
      else if c = 34 then
        match parseChars rest with
        | some (s, r) => some (.str s, r)
        | none => none
      else if (lit "true").isPrefixOf t then some (.bool true, t.drop 4)
      else if (lit "false").isPrefixOf t then some (.bool false, t.drop 5)
      else if (lit "null").isPrefixOf t then some (.null, t.drop 4)
      else
        match parseNumber t with
        | some (x, r) => some (.num x, r)
        | none => none
/-- The elements of an array from the head of an element on, up to and including
the closing bracket. -/
def parseElements : Nat → JSString → Option (List JVal × JSString)
  | 0, _ => none
  | f + 1, t =>
    match parseValue f t with
    | none => none
    | some (x, r) =>
      match skipWs r with
      | [] => none
      | d :: r2 =>
        if d = 44 then
          match parseElements f (skipWs r2) with
          | some (xs, r3) => some (x :: xs, r3)
          | none => none
        else if d = 93 then some ([x], r2)
        else none
/-- The members of an object from the head of a key on, up to and including the
closing brace, in source order. -/
def parseMembers : Nat → JSString → Option (List (JSString × JVal) × JSString)
  | 0, _ => none
  | f + 1, t =>
    match t with
    | [] => none
    | q :: r0 =>
      if q = 34 then
        match parseChars r0 with
        | none => none
        | some (k, r1) =>
          match skipWs r1 with
          | [] => none
          | p :: r2 =>
            if p = 58 then
              match parseValue f (skipWs r2) with
              | none => none
              | some (v, r3) =>
                match skipWs r3 with
                | [] => none
                | d :: r4 =>
                  if d = 44 then
                    match parseMembers f (skipWs r4) with
                    | some (ms, r5) => some ((k, v) :: ms, r5)
                    | none => none
                  else if d = 125 then some ([(k, v)], r4)
                  else none
            else none
      else none
end

/-- The function `JSON.parse` on a string; `none` is a SyntaxError. -/
def jsonParse (t : JSString) : Option JVal :=
  match parseValue (2 * t.length + 2) (skipWs t) with
  | some (v, rest) => if (skipWs rest).isEmpty then some v else none
  | none => none

/-! ## The handler of `POST /api/generate` -/

/-- A response: its status code and the value given to `res.json`. -/
structure Response where
  status : Nat
  body : JVal

/-- An exception as the outer `catch` reads it: `err.response.data` when there is
one, `err.name` and `err.message`. -/
structure JSError where
  responseData : Option JVal
  name : JSString
  message : JSString

/-- The method `Error.prototype.toString`. -/
def errorString (err : JSError) : JSString :=
  if err.name.isEmpty then err.message
  else if err.message.isEmpty then err.name
  else err.name ++ lit ": " ++ err.message

/-- Lines 111 to 119, the outer `catch`: status 500 with
`detail = err?.response?.data || err.message || String(err)`. -/
def caught (err : JSError) : Response :=
  ⟨500, .obj [(lit "error", .str (lit "Upstream or server error")),
    (lit "detail", jsOrElse (jsOr err.responseData (some (.str err.message)))
      (.str (errorString err)))]⟩

/-- The TypeError of reading a property of `null`, with the message of V8. -/
def nullReadError : JSError :=
  ⟨none, lit "TypeError", lit "Cannot read properties of null (reading 'index.html')"⟩

/-- The expression `upstream?.choices?.[0]?.text`. -/
def choicesText (upstream : JVal) : Option JVal :=
  getOpt (getOpt (getOpt (some upstream) (lit "choices")) (lit "0")) (lit "text")

/-- The expression `upstream?.choices?.[0]?.message?.content`. -/
def choicesMessageContent (upstream : JVal) : Option JVal :=
  getOpt (getOpt (getOpt (getOpt (some upstream) (lit "choices")) (lit "0")) (lit "message"))
    (lit "content")

/-- The expression `upstream?.output?.[0]?.content`. -/
def outputContent (upstream : JVal) : Option JVal :=
  getOpt (getOpt (getOpt (some upstream) (lit "output")) (lit "0")) (lit "content")

/-- The expression `upstream?.text`. -/
def topText (upstream : JVal) : Option JVal := getOpt (some upstream) (lit "text")

/-- Lines 63 to 69: the value of `text` after the chain of `if` and `else if`. Each
test is the truthiness of a probe, and the value taken is that probe; `jsOrElse a b`
is `a` when `a` is truthy and `b` otherwise. -/
def extractText (upstream : JVal) : JVal :=
  match upstream with
  | .str s => .str s
  | _ =>
    jsOrElse (choicesText upstream)
      (jsOrElse (choicesMessageContent upstream)
        (jsOrElse (outputContent upstream)
          (jsOrElse (topText upstream) (.str (jsonStringify upstream)))))

/-- Lines 82 to 86: the text from the first `{` to the last `}`, when both are there
and the last `}` comes after the first `{`. -/
def braceSpan (text : JSString) : Option JSString :=
  match indexOf 123 text, lastIndexOf 125 text with
  | some s, some e => if s < e then some (slice text s (e + 1)) else none
  | _, _ => none

/-- Lines 77 to 98: the value of `bundle` after the `try`; `none` when the handler
answers from within the `catch` because `bundle` is falsy there. -/
def parseBundle (text : JSString) : Option JVal :=
  match jsonParse text with
  | some bundle => some bundle
  | none =>
    match (braceSpan text).bind jsonParse with
    | some bundle => if truthy bundle then some bundle else none
    | none => none

/-- The chain `bundle[k1] || bundle[k2] || bundle[k3] || ""`. -/
def firstOf (bundle : JVal) (k1 k2 k3 : JSString) : JVal :=
  jsOrElse (jsOr (jsOr (getProp bundle k1) (getProp bundle k2)) (getProp bundle k3)) (.str [])

/-- Line 101. -/
def html (bundle : JVal) : JVal := firstOf bundle (lit "index.html") (lit "index") (lit "html")

/-- Line 102. -/
def css (bundle : JVal) : JVal := firstOf bundle (lit "styles.css") (lit "style.css") (lit "css")

/-- Line 103. -/
def js (bundle : JVal) : JVal := firstOf bundle (lit "script.js") (lit "app.js") (lit "js")

/-- Lines 93 to 96: the answer when no bundle could be parsed. -/
def invalidModelOutput (text : JSString) : Response :=
  ⟨502, .obj [(lit "error", .str (lit "Model response not valid JSON")),
    (lit "model_text_preview", .str (text.take 2000))]⟩

/-- Line 106: the answer when the markup is missing. -/
def missingMarkup (keys : List JSString) : Response :=
  ⟨502, .obj [(lit "error", .str (lit "Generated bundle missing index.html")),
    (lit "keys", .arr (keys.map JVal.str))]⟩

/-- Line 109: the bundle, with status 200. -/
def filesResponse (h c j : JVal) : Response :=
  ⟨200, .obj [(lit "files",
    .obj [(lit "index.html", h), (lit "styles.css", c), (lit "script.js", j)])]⟩

/-- Lines 100 to 109 for a parsed `bundle`. Reading a property of `null` throws,
and the outer `catch` answers. -/
def respondBundle (bundle : JVal) : Response :=
  match bundle with
  | .null => caught nullReadError
  | _ =>
    if !truthy (html bundle) then missingMarkup (objectKeys bundle)
    else filesResponse (html bundle) (css bundle) (js bundle)

/-- Lines 76 to 109 on the cleaned text. -/
def normalize (text : JSString) : Response :=
  match parseBundle text with
  | none => invalidModelOutput text
  | some bundle => respondBundle bundle

/-- Field mapping as the specification words it: the value of the first alias that
is present, whatever the value; the empty string when none is present. -/
def specFirstPresent (bundle : JVal) (k1 k2 k3 : JSString) : JVal :=
  match getProp bundle k1 with
  | some v => v
  | none =>
    match getProp bundle k2 with
    | some v => v
    | none =>
      match getProp bundle k3 with
      | some v => v
      | none => .str []

/-- The string a probe exposes, when it exposes one. -/
def stringOf : Option JVal → Option JSString
  | some (.str s) => some s
  | _ => none

/-- Text extraction as the specification words it: a string payload itself, else the
first of the four fields that holds a string (`none` when no field does). -/
def specExtract (upstream : JVal) : Option JSString :=
  match upstream with
  | .str s => some s
  | _ =>
    [choicesText upstream, choicesMessageContent upstream, outputContent upstream,
      topText upstream].findSome? stringOf

/-- The first candidate of a list that is truthy, `none` when none is. -/
def firstTruthy : List (Option JVal) → Option JVal
  | [] => none
  | a :: rest => if truthy? a then a else firstTruthy rest

/-- The four probes of text extraction, in the order the handler tries them. -/
def probes (upstream : JVal) : List (Option JVal) :=
  [choicesText upstream, choicesMessageContent upstream, outputContent upstream,
    topText upstream]

/-- The accepted keys of the markup slot, in priority order. -/
def markupAliases : List JSString := [lit "index.html", lit "index", lit "html"]

/-- The accepted keys of the stylesheet slot, in priority order. -/
def stylesheetAliases : List JSString := [lit "styles.css", lit "style.css", lit "css"]

/-- The accepted keys of the script slot, in priority order. -/
def scriptAliases : List JSString := [lit "script.js", lit "app.js", lit "js"]

/-- A value is a string. -/
def isStr : JVal → Bool
  | .str _ => true
  | _ => false

/-! ## Concrete inputs -/

/-- A parsed object whose highest-priority markup alias holds the empty string. -/
def shadowedBundle : JVal :=
  .obj [(lit "index.html", .str []), (lit "html", .str (lit "<p>hi</p>"))]

/-- A parsed object that uses alias keys only. -/
def aliasBundle : JVal :=
  .obj [(lit "index", .str (lit "<h1>x</h1>")), (lit "style.css", .str (lit "h1 \x7b\x7d")),
    (lit "app.js", .str (lit "1;"))]

/-- The properties of a parsed object without markup. -/
def noMarkupProps : List (JSString × JVal) :=
  [(lit "page", .str (lit "<p>")), (lit "index.html", .str []), (lit "css", .str (lit "p"))]

/-- A payload whose `choices[0].text` is the empty string and whose top-level `text`
is not. -/
def emptyChoiceTextPayload : JVal :=
  .obj [(lit "choices", .arr [.obj [(lit "text", .str [])]]), (lit "text", .str (lit "hi"))]

/-- The bundle of scenario A, as JSON text. -/
def scenarioAJson : JSString :=
  lit "\x7b\"index.html\":\"<html></html>\",\"styles.css\":\"\",\"script.js\":\"\"\x7d"

/-- The upstream payload of scenario A. -/
def scenarioAPayload : JVal :=
  .obj [(lit "choices", .arr [.obj [(lit "text",
    .str (lit "```json\n" ++ scenarioAJson ++ lit "\n```"))]])]

/-- A model text that is not JSON and has a brace span that is not JSON either. -/
def proseText : JSString := lit "Sure! Here is the site: \x7bnot json\x7d enjoy"

/-- A fenced block inside another fenced block. -/
def nestedFences : JSString := lit "```json\n```json\n\x7b\x7d\n```\n```"

/-- A fenced block with the language tag `html`. -/
def htmlTagged : JSString := fence ++ lit "html" ++ [10] ++ lit "\x7b\x7d" ++ [10] ++ fence

/-- The decomposition of a finite non-zero number is canonical: digits below ten,
no leading and no trailing zero, and a magnitude that binary64 takes neither to zero nor
to an infinity. -/
def JNum.wf : JNum → Bool
  | .fin neg ds n =>
    !ds.isEmpty && ds.all (fun d => decide (d < 10)) && ds.head? != some 0 &&
      ds.getLast? != some 0 && (classify neg ds n == .fin neg ds n)
  | _ => true

/-- The order of `Object.keys` between two keys: an array index comes before a key
that is not one, and before a larger array index. -/
def keyBefore (k1 k2 : JSString) : Bool :=
  match arrayIndex? k2 with
  | some j =>
    match arrayIndex? k1 with
    | some i => decide (i < j)
    | none => false
  | none => true

/-- The keys of an object are distinct and in the order of `Object.keys`. -/
def keysCanonical : List JSString → Bool
  | [] => true
  | k :: ks => !ks.contains k && ks.all (keyBefore k) && keysCanonical ks

mutual
/-- A value as JavaScript holds it: numbers in canonical decomposition, object keys
distinct and in the order of `Object.keys`. Every value `JSON.parse` returns is such a
value, and the upstream payload is one. -/
def wellFormed : JVal → Bool
  | .num x => x.wf
  | .arr xs => wellFormedList xs
  | .obj kvs => keysCanonical (kvs.map Prod.fst) && wellFormedMembers kvs
  | _ => true
/-- Every element is well formed. -/
def wellFormedList : List JVal → Bool
  | [] => true
  | x :: xs => wellFormed x && wellFormedList xs
/-- Every property value is well formed. -/
def wellFormedMembers : List (JSString × JVal) → Bool
  | [] => true
  | (_, v) :: kvs => wellFormed v && wellFormedMembers kvs
end

mutual
/-- The value of `JSON.parse(JSON.stringify(v))`: `v` with `null` in the place of
every non-finite number. -/
def jsonCopy : JVal → JVal
  | .num (.inf _) => .null
  | .arr xs => .arr (jsonCopyList xs)
  | .obj kvs => .obj (jsonCopyMembers kvs)
  | v => v
/-- The copy of each element. -/
def jsonCopyList : List JVal → List JVal
  | [] => []
  | x :: xs => jsonCopy x :: jsonCopyList xs
/-- The copy of each property value. -/
def jsonCopyMembers : List (JSString × JVal) → List (JSString × JVal)
  | [] => []
  | (k, v) :: kvs => (k, jsonCopy v) :: jsonCopyMembers kvs
end

mutual
/-- A bound that is enough for `parseValue` to read back the text `JSON.stringify`
prints for a value: one per value and one per element or property. -/
def fuelOf : JVal → Nat
  | .arr xs => 1 + fuelOfList xs
  | .obj kvs => 1 + fuelOfMembers kvs
  | _ => 1
/-- The bound for the elements of an array. -/
def fuelOfList : List JVal → Nat
  | [] => 0
  | x :: xs => 1 + fuelOf x + fuelOfList xs
/-- The bound for the properties of an object. -/
def fuelOfMembers : List (JSString × JVal) → Nat
  | [] => 0
  | (_, v) :: kvs => 1 + fuelOf v + fuelOfMembers kvs
end

theorem isWhiteSpace_backtick : isWhiteSpace 96 = false := by decide

theorem trim_nil : trim [] = [] := by simp [trim]

theorem trim_length_le (t : JSString) : (trim t).length ≤ t.length := by
  unfold trim
  exact le_trans (List.rdropWhile_prefix (p := isWhiteSpace) _).length_le
    (List.dropWhile_suffix _).length_le

/-- Whitespace in front of a text that starts with a visible code unit is dropped. -/
theorem dropWhile_ws_append (pre : JSString) (a : Nat) (x : JSString)
    (hpre : ∀ c ∈ pre, isWhiteSpace c = true) (ha : isWhiteSpace a = false) :
    (pre ++ a :: x).dropWhile isWhiteSpace = a :: x := by
  rw [List.dropWhile_append_of_pos hpre]
  simp [ha]

/-- Whitespace behind a text that ends with a visible code unit is dropped. -/
theorem rdropWhile_ws_append (x : JSString) (z : Nat) (post : JSString)
    (hpost : ∀ c ∈ post, isWhiteSpace c = true) (hz : isWhiteSpace z = false) :
    (x ++ z :: post).rdropWhile isWhiteSpace = x ++ [z] := by
  unfold List.rdropWhile
  have : (x ++ z :: post).reverse = post.reverse ++ z :: x.reverse := by simp
  rw [this, List.dropWhile_append_of_pos (by simpa using hpost)]
  simp [hz]

/-- A text is its own trimmed form exactly when neither end is whitespace. -/
theorem trim_eq_self_iff (t : JSString) :
    trim t = t ↔ t.dropWhile isWhiteSpace = t ∧ t.rdropWhile isWhiteSpace = t := by
  constructor
  · intro h
    have h1 : (t.dropWhile isWhiteSpace).length = t.length := by
      apply le_antisymm (List.dropWhile_suffix _).length_le
      conv_lhs => rw [← h]
      exact (List.rdropWhile_prefix (p := isWhiteSpace) _).length_le
    have h2 : t.dropWhile isWhiteSpace = t :=
      (List.dropWhile_suffix _).eq_of_length h1
    refine ⟨h2, ?_⟩
    unfold trim at h
    rw [h2] at h
    exact h
  · rintro ⟨h1, h2⟩
    unfold trim
    rw [h1, h2]

theorem trim_idem (t : JSString) : trim (trim t) = trim t := by
  rw [trim_eq_self_iff]
  refine ⟨?_, ?_⟩
  · unfold trim
    cases hd : List.rdropWhile isWhiteSpace (List.dropWhile isWhiteSpace t) with
    | nil => rfl
    | cons a l =>
      obtain ⟨r, hr⟩ := List.rdropWhile_prefix (p := isWhiteSpace) (List.dropWhile isWhiteSpace t)
      rw [hd] at hr
      have h2 := List.head?_dropWhile_not isWhiteSpace t
      rw [← hr] at h2
      simp only [List.cons_append, List.head?_cons] at h2
      simp [h2]
  · unfold trim
    exact List.rdropWhile_idempotent _ _


theorem removeOpeningFence_unfenced (t : JSString) (h : ¬ fence <+: t) :
    removeOpeningFence t = t := by
  unfold removeOpeningFence
  rw [if_neg (by simpa using h)]

theorem removeClosingFence_unfenced (t : JSString) (h : ¬ fence <:+ t) :
    removeClosingFence t = t := by
  unfold removeClosingFence
  rw [if_neg (by simpa using h)]

theorem dropJsonTag_length_le (t : JSString) : (dropJsonTag t).length ≤ t.length := by
  unfold dropJsonTag
  split <;> simp

theorem removeOpeningFence_length_le (t : JSString) :
    (removeOpeningFence t).length ≤ t.length := by
  unfold removeOpeningFence
  split
  · refine le_trans (List.dropWhile_suffix _).length_le (le_trans (dropJsonTag_length_le _) ?_)
    simp
  · exact le_refl _

theorem removeOpeningFence_length_lt (t : JSString) (h : fence <+: t) :
    (removeOpeningFence t).length < t.length := by
  unfold removeOpeningFence
  rw [if_pos (by simpa using h)]
  have h3 : 3 ≤ t.length := by simpa [fence] using h.length_le
  refine lt_of_le_of_lt (List.dropWhile_suffix _).length_le
    (lt_of_le_of_lt (dropJsonTag_length_le _) ?_)
  simp only [List.length_drop]
  omega

theorem removeClosingFence_length_le (t : JSString) :
    (removeClosingFence t).length ≤ t.length := by
  unfold removeClosingFence
  split
  · simp [List.rdrop]
  · exact le_refl _

theorem removeClosingFence_length_lt (t : JSString) (h : fence <:+ t) :
    (removeClosingFence t).length < t.length := by
  unfold removeClosingFence
  rw [if_pos (by simpa using h)]
  have h3 : 3 ≤ t.length := by simpa [fence] using h.length_le
  simp only [List.rdrop, List.length_take]
  omega

theorem cleanText_length_le (t : JSString) : (cleanText t).length ≤ t.length := by
  unfold cleanText
  exact le_trans (trim_length_le _) (le_trans (removeClosingFence_length_le _)
    (le_trans (removeOpeningFence_length_le _) (trim_length_le _)))

theorem trim_cleanText (t : JSString) : trim (cleanText t) = cleanText t := by
  unfold cleanText
  exact trim_idem _

/-- Cleaning a text that is already trimmed and carries no fence changes nothing. -/
theorem cleanText_of_no_fence (s : JSString) (ht : trim s = s)
    (h1 : ¬ fence <+: s) (h2 : ¬ fence <:+ s) : cleanText s = s := by
  unfold cleanText
  rw [ht, removeOpeningFence_unfenced s h1, removeClosingFence_unfenced s h2, ht]

/-- A cleaned text that still has a fence at either end gets shorter when cleaned again. -/
theorem cleanText_length_lt (s : JSString) (ht : trim s = s)
    (h : fence <+: s ∨ fence <:+ s) : (cleanText s).length < s.length := by
  unfold cleanText
  rw [ht]
  refine lt_of_le_of_lt (trim_length_le _) ?_
  by_cases h1 : fence <+: s
  · exact lt_of_le_of_lt (removeClosingFence_length_le _) (removeOpeningFence_length_lt s h1)
  · rw [removeOpeningFence_unfenced s h1]
    exact removeClosingFence_length_lt s (h.resolve_left h1)

/-- Trimming a fenced block that is surrounded by whitespace leaves the block. -/
theorem trim_fenced (pre post mid : JSString)
    (hpre : ∀ c ∈ pre, isWhiteSpace c = true) (hpost : ∀ c ∈ post, isWhiteSpace c = true) :
    trim (pre ++ fence ++ mid ++ fence ++ post) = fence ++ mid ++ fence := by
  unfold trim
  have e1 : pre ++ fence ++ mid ++ fence ++ post
      = pre ++ 96 :: ([96, 96] ++ mid ++ fence ++ post) := by simp [fence]
  rw [e1, dropWhile_ws_append pre 96 _ hpre isWhiteSpace_backtick]
  have e2 : 96 :: ([96, 96] ++ mid ++ fence ++ post)
      = (fence ++ mid ++ [96, 96]) ++ 96 :: post := by simp [fence]
  rw [e2, rdropWhile_ws_append _ 96 post hpost isWhiteSpace_backtick]
  simp [fence]

/-- The opening fence, its optional `json` tag and the whitespace after it are
removed. -/
theorem removeOpeningFence_fenced (g x : JSString) (hg : g = [] ∨ g = jsonTag) :
    removeOpeningFence (fence ++ g ++ [10] ++ x) = x.dropWhile isWhiteSpace := by
  unfold removeOpeningFence
  rcases hg with rfl | rfl
  · have : dropJsonTag (10 :: x) = 10 :: x := by
      simp [dropJsonTag, jsonTag, List.isPrefixOf]
    simp only [fence, List.append_nil, List.cons_append, List.nil_append, List.isPrefixOf,
      beq_self_eq_true, Bool.and_self, if_true, List.drop_succ_cons, List.drop_zero, this]
    rw [List.dropWhile_cons_of_pos (by decide)]
  · have : dropJsonTag (jsonTag ++ 10 :: x) = 10 :: x := by
      simp [dropJsonTag, jsonTag, List.isPrefixOf]
    have e : fence ++ jsonTag ++ [10] ++ x = 96 :: 96 :: 96 :: (jsonTag ++ 10 :: x) := by
      simp [fence]
    rw [e]
    simp only [fence, List.isPrefixOf, beq_self_eq_true, Bool.and_self, if_true,
      List.drop_succ_cons, List.drop_zero, this]
    rw [List.dropWhile_cons_of_pos (by decide)]

/-- The closing fence at the end of a text is removed. -/
theorem removeClosingFence_append (x : JSString) : removeClosingFence (x ++ fence) = x := by
  unfold removeClosingFence
  rw [if_pos (by simp)]
  simp [List.rdrop, fence]

/-! ## Field mapping -/

theorem jsOr_of_truthy (a b : Option JVal) (h : truthy? a = true) : jsOr a b = a := by
  simp [jsOr, h]

theorem jsOr_of_falsy (a b : Option JVal) (h : truthy? a = false) : jsOr a b = b := by
  simp [jsOr, h]

theorem jsOrElse_of_falsy (a : Option JVal) (d : JVal) (h : truthy? a = false) :
    jsOrElse a d = d := by
  cases a with
  | none => rfl
  | some v =>
    simp only [truthy?] at h
    simp [jsOrElse, h]

theorem jsOrElse_getD (a : Option JVal) (d e : JVal) (h : truthy? a = true) :
    jsOrElse a d = a.getD e := by
  cases a with
  | none => simp [truthy?] at h
  | some v =>
    simp only [truthy?] at h
    simp [jsOrElse, h]

theorem firstOf_eq_firstTruthy (b : JVal) (k1 k2 k3 : JSString) :
    firstOf b k1 k2 k3
      = (firstTruthy [getProp b k1, getProp b k2, getProp b k3]).getD (.str []) := by
  unfold firstOf firstTruthy firstTruthy firstTruthy firstTruthy
  cases h1 : truthy? (getProp b k1) with
  | true =>
    rw [jsOr_of_truthy _ _ h1, jsOr_of_truthy _ _ h1, if_pos rfl]
    exact jsOrElse_getD _ _ _ h1
  | false =>
    rw [jsOr_of_falsy _ _ h1, if_neg (by simp)]
    cases h2 : truthy? (getProp b k2) with
    | true =>
      rw [jsOr_of_truthy _ _ h2, if_pos rfl]
      exact jsOrElse_getD _ _ _ h2
    | false =>
      rw [jsOr_of_falsy _ _ h2, if_neg (by simp)]
      cases h3 : truthy? (getProp b k3) with
      | true =>
        rw [if_pos rfl]
        exact jsOrElse_getD _ _ _ h3
      | false =>
        rw [if_neg (by simp), jsOrElse_of_falsy _ _ h3]; rfl

theorem getProp_null (k : JSString) : getProp .null k = none := rfl

/-- For a bundle other than `null` the answer is decided by the markup slot. -/
theorem respondBundle_of_ne_null (b : JVal) (hb : b ≠ .null) :
    respondBundle b = if !truthy (html b) then missingMarkup (objectKeys b)
      else filesResponse (html b) (css b) (js b) := by
  cases b <;> first | rfl | exact absurd rfl hb

/-- A slot with a single alias present, holding a non-empty string, takes that string. -/
theorem firstOf_single (b : JVal) (k1 k2 k3 k : JSString) (s : JSString)
    (hk : k ∈ [k1, k2, k3]) (hv : getProp b k = some (.str s)) (hs : s ≠ [])
    (hother : ∀ x ∈ [k1, k2, k3], x ≠ k → getProp b x = none) :
    firstOf b k1 k2 k3 = .str s := by
  have ht : truthy? (getProp b k) = true := by
    rw [hv]; cases s with
    | nil => exact absurd rfl hs
    | cons c t => rfl
  have hf : ∀ x ∈ [k1, k2, k3], x ≠ k → truthy? (getProp b x) = false := by
    intro x hx hne
    rw [hother x hx hne]; rfl
  rw [firstOf_eq_firstTruthy]
  unfold firstTruthy firstTruthy firstTruthy firstTruthy
  by_cases e1 : k1 = k
  · subst e1; rw [if_pos ht, hv]; rfl
  · rw [if_neg (by simp [hf k1 (by simp) e1])]
    by_cases e2 : k2 = k
    · subst e2; rw [if_pos ht, hv]; rfl
    · rw [if_neg (by simp [hf k2 (by simp) e2])]
      have e3 : k3 = k := by
        simp only [List.mem_cons, List.mem_singleton, List.not_mem_nil, or_false] at hk
        rcases hk with h | h | h
        · exact absurd h.symm e1
        · exact absurd h.symm e2
        · exact h.symm
      subst e3; rw [if_pos ht, hv]; rfl

/-- C3, counterexample: with `index.html` present and empty, the specification's
first-alias-present rule gives the empty string for markup, while the handler goes on
to `html` and takes its value. -/
theorem C3_present_but_empty_alias_is_skipped :
    getProp shadowedBundle (lit "index.html") = some (.str []) ∧
    specFirstPresent shadowedBundle (lit "index.html") (lit "index") (lit "html") = .str [] ∧
    html shadowedBundle = .str (lit "<p>hi</p>") ∧
    html shadowedBundle ≠ specFirstPresent shadowedBundle (lit "index.html") (lit "index") (lit "html") := by
  refine ⟨rfl, rfl, rfl, ?_⟩
  rw [show html shadowedBundle = .str (lit "<p>hi</p>") from rfl,
    show specFirstPresent shadowedBundle (lit "index.html") (lit "index") (lit "html") = .str []
      from rfl]
  intro h
  injection h with h
  exact absurd h (by decide)

/-- C3, amended: each slot is the value of the first alias, in the fixed order, whose
value is truthy, and the empty string when no alias of the slot holds a truthy value;
when a higher-priority alias holds a truthy value the slot is that value whatever the
lower-priority aliases hold. -/
theorem C3_field_mapping_first_truthy (b : JVal) :
    html b = (firstTruthy [getProp b (lit "index.html"), getProp b (lit "index"),
      getProp b (lit "html")]).getD (.str []) ∧
    css b = (firstTruthy [getProp b (lit "styles.css"), getProp b (lit "style.css"),
      getProp b (lit "css")]).getD (.str []) ∧
    js b = (firstTruthy [getProp b (lit "script.js"), getProp b (lit "app.js"),
      getProp b (lit "js")]).getD (.str []) ∧
    (∀ v, getProp b (lit "index.html") = some v → truthy v = true → html b = v) ∧
    (∀ v, getProp b (lit "styles.css") = some v → truthy v = true → css b = v) ∧
    (∀ v, getProp b (lit "script.js") = some v → truthy v = true → js b = v) := by
  refine ⟨firstOf_eq_firstTruthy _ _ _ _, firstOf_eq_firstTruthy _ _ _ _,
    firstOf_eq_firstTruthy _ _ _ _, ?_, ?_, ?_⟩ <;>
  · intro v hv ht
    first | unfold html | unfold css | unfold js
    rw [firstOf_eq_firstTruthy]
    unfold firstTruthy
    rw [hv, if_pos (by simpa [truthy?] using ht)]
    rfl

/-- C4: a parsed object that holds exactly one accepted key per slot, each with a
non-empty string, yields status 200 and the bundle of the three strings unchanged,
whichever alias of a slot carried the value. -/
theorem C4_one_key_per_slot_reproduced (b : JVal) (km kc kj h c j : JSString)
    (hkm : km ∈ markupAliases) (hkc : kc ∈ stylesheetAliases) (hkj : kj ∈ scriptAliases)
    (hm : getProp b km = some (.str h)) (hc : getProp b kc = some (.str c))
    (hj : getProp b kj = some (.str j))
    (hm1 : ∀ k ∈ markupAliases, k ≠ km → getProp b k = none)
    (hc1 : ∀ k ∈ stylesheetAliases, k ≠ kc → getProp b k = none)
    (hj1 : ∀ k ∈ scriptAliases, k ≠ kj → getProp b k = none)
    (hh : h ≠ []) (hcc : c ≠ []) (hjj : j ≠ []) :
    respondBundle b = ⟨200, .obj [(lit "files",
      .obj [(lit "index.html", .str h), (lit "styles.css", .str c), (lit "script.js", .str j)])]⟩ := by
  have hb : b ≠ .null := by
    intro e; rw [e, getProp_null] at hm; exact absurd hm (by simp)
  have e1 : html b = .str h := firstOf_single b _ _ _ km h hkm hm hh hm1
  have e2 : css b = .str c := firstOf_single b _ _ _ kc c hkc hc hcc hc1
  have e3 : js b = .str j := firstOf_single b _ _ _ kj j hkj hj hjj hj1
  rw [respondBundle_of_ne_null b hb, e1, e2, e3]
  have : truthy (.str h) = true := by
    cases h with
    | nil => exact absurd rfl hh
    | cons x t => rfl
  rw [this]
  rfl

/-- C4, witness: the object with the keys `index`, `style.css` and `app.js`. -/
theorem C4_alias_bundle_witness :
    respondBundle aliasBundle = ⟨200, .obj [(lit "files",
      .obj [(lit "index.html", .str (lit "<h1>x</h1>")), (lit "styles.css", .str (lit "h1 \x7b\x7d")),
        (lit "script.js", .str (lit "1;"))])]⟩ :=
  C4_one_key_per_slot_reproduced aliasBundle (lit "index") (lit "style.css") (lit "app.js")
    (lit "<h1>x</h1>") (lit "h1 \x7b\x7d") (lit "1;") (by decide) (by decide) (by decide) rfl rfl rfl
    (by
      intro k hk hne
      simp only [markupAliases, List.mem_cons, List.mem_singleton, List.not_mem_nil,
        or_false] at hk
      rcases hk with rfl | rfl | rfl
      · rfl
      · exact absurd rfl hne
      · rfl)
    (by
      intro k hk hne
      simp only [stylesheetAliases, List.mem_cons, List.mem_singleton, List.not_mem_nil,
        or_false] at hk
      rcases hk with rfl | rfl | rfl
      · rfl
      · exact absurd rfl hne
      · rfl)
    (by
      intro k hk hne
      simp only [scriptAliases, List.mem_cons, List.mem_singleton, List.not_mem_nil,
        or_false] at hk
      rcases hk with rfl | rfl | rfl
      · rfl
      · exact absurd rfl hne
      · rfl)
    (by decide) (by decide) (by decide)

/-- C5: when the markup slot of a parsed object resolves to the empty string, the
answer is status 502 with the error `Generated bundle missing index.html` and, as
`keys`, the object's own top-level keys; none of the three markup aliases then holds
a truthy value. -/
theorem C5_missing_markup_lists_keys (kvs : List (JSString × JVal))
    (h : html (.obj kvs) = .str []) :
    respondBundle (.obj kvs) = ⟨502, .obj [(lit "error",
        .str (lit "Generated bundle missing index.html")),
      (lit "keys", .arr ((kvs.map Prod.fst).map JVal.str))]⟩ ∧
    truthy? (getProp (.obj kvs) (lit "index.html")) = false ∧
    truthy? (getProp (.obj kvs) (lit "index")) = false ∧
    truthy? (getProp (.obj kvs) (lit "html")) = false := by
  refine ⟨?_, ?_⟩
  · rw [respondBundle_of_ne_null _ (by simp), h]
    rfl
  · have h' := h
    unfold html at h'
    rw [firstOf_eq_firstTruthy] at h'
    unfold firstTruthy firstTruthy firstTruthy firstTruthy at h'
    have key : ∀ a : Option JVal, truthy? a = true → a.getD (.str []) ≠ .str [] := by
      intro a ha e
      cases a with
      | none => simp [truthy?] at ha
      | some v =>
        simp only [Option.getD_some] at e
        rw [e] at ha
        simp [truthy?, truthy] at ha
    cases t1 : truthy? (getProp (.obj kvs) (lit "index.html")) with
    | true => rw [if_pos t1] at h'; exact absurd h' (key _ t1)
    | false =>
      rw [if_neg (by simp [t1])] at h'
      cases t2 : truthy? (getProp (.obj kvs) (lit "index")) with
      | true => rw [if_pos t2] at h'; exact absurd h' (key _ t2)
      | false =>
        rw [if_neg (by simp [t2])] at h'
        cases t3 : truthy? (getProp (.obj kvs) (lit "html")) with
        | true => rw [if_pos t3] at h'; exact absurd h' (key _ t3)
        | false => exact ⟨rfl, rfl, rfl⟩

/-- C5, witness: an object with the keys `page`, `index.html` (empty) and `css`. -/
theorem C5_missing_markup_witness :
    respondBundle (.obj noMarkupProps) = ⟨502, .obj [(lit "error",
        .str (lit "Generated bundle missing index.html")),
      (lit "keys", .arr ((noMarkupProps.map Prod.fst).map JVal.str))]⟩ ∧
    truthy? (getProp (.obj noMarkupProps) (lit "index.html")) = false ∧
    truthy? (getProp (.obj noMarkupProps) (lit "index")) = false ∧
    truthy? (getProp (.obj noMarkupProps) (lit "html")) = false :=
  C5_missing_markup_lists_keys noMarkupProps rfl


/-! ## Text extraction -/

theorem firstTruthy_of_index (l : List (Option JVal)) (i : Nat) (a : Option JVal)
    (hi : l[i]? = some a) (ha : truthy? a = true)
    (hlt : ∀ j < i, ∀ x, l[j]? = some x → truthy? x = false) : firstTruthy l = a := by
  induction l generalizing i with
  | nil => simp at hi
  | cons x rest ih =>
    cases i with
    | zero =>
      simp only [List.getElem?_cons_zero, Option.some.injEq] at hi
      subst hi
      simp [firstTruthy, ha]
    | succ n =>
      have hx : truthy? x = false := hlt 0 (Nat.succ_pos n) x (by simp)
      simp only [List.getElem?_cons_succ] at hi
      unfold firstTruthy
      rw [if_neg (by simp [hx])]
      exact ih n hi (fun j hj y hy => hlt (j + 1) (Nat.succ_lt_succ hj) y (by simpa using hy))

theorem extractText_eq_firstTruthy (u : JVal) (hu : ∀ s, u ≠ .str s) :
    extractText u = (firstTruthy (probes u)).getD (.str (jsonStringify u)) := by
  have key : extractText u = jsOrElse (choicesText u) (jsOrElse (choicesMessageContent u)
      (jsOrElse (outputContent u) (jsOrElse (topText u) (.str (jsonStringify u))))) := by
    cases u <;> first | rfl | exact absurd rfl (hu _)
  rw [key]
  unfold probes firstTruthy firstTruthy firstTruthy firstTruthy firstTruthy
  cases h1 : truthy? (choicesText u) with
  | true => rw [if_pos rfl]; exact jsOrElse_getD _ _ _ h1
  | false =>
    rw [jsOrElse_of_falsy _ _ h1, if_neg (by simp)]
    cases h2 : truthy? (choicesMessageContent u) with
    | true => rw [if_pos rfl]; exact jsOrElse_getD _ _ _ h2
    | false =>
      rw [jsOrElse_of_falsy _ _ h2, if_neg (by simp)]
      cases h3 : truthy? (outputContent u) with
      | true => rw [if_pos rfl]; exact jsOrElse_getD _ _ _ h3
      | false =>
        rw [jsOrElse_of_falsy _ _ h3, if_neg (by simp)]
        cases h4 : truthy? (topText u) with
        | true => rw [if_pos rfl]; exact jsOrElse_getD _ _ _ h4
        | false => rw [jsOrElse_of_falsy _ _ h4, if_neg (by simp)]; rfl

/-- C6, counterexample: `choices[0].text` holds a string, the empty one, so the
specification's rule extracts the empty string; the handler passes it over and
extracts the top-level `text`. -/
theorem C6_empty_string_field_is_passed_over :
    choicesText emptyChoiceTextPayload = some (.str []) ∧
    specExtract emptyChoiceTextPayload = some [] ∧
    toStr (extractText emptyChoiceTextPayload) = some (lit "hi") ∧
    toStr (extractText emptyChoiceTextPayload) ≠ specExtract emptyChoiceTextPayload := by
  refine ⟨rfl, by decide, by decide, by decide⟩

/-- C6, amended: extraction is first-truthy-wins over the fixed order. A payload that
is a string is used verbatim. Otherwise the extracted value is the first of
`choices[0].text`, `choices[0].message.content`, `output[0].content`, `text` whose value
is truthy, and the serialised payload when none is. So when a field holds a non-empty
string and every field before it is absent or falsy, the extracted text is exactly that
string, whatever the fields after it hold. -/
theorem C6_extraction_first_truthy (u : JVal) :
    (∀ s, u = .str s → toStr (extractText u) = some s) ∧
    ((∀ s, u ≠ .str s) →
      extractText u = (firstTruthy (probes u)).getD (.str (jsonStringify u))) ∧
    (∀ (i : Nat) (s : JSString), (∀ t, u ≠ .str t) → (probes u)[i]? = some (some (.str s)) →
      s ≠ [] → (∀ j < i, ∀ x, (probes u)[j]? = some x → truthy? x = false) →
      extractText u = .str s ∧ toStr (extractText u) = some s) := by
  refine ⟨?_, extractText_eq_firstTruthy u, ?_⟩
  · rintro s rfl; rfl
  · intro i s hu hi hs hlt
    have ht : truthy? (some (.str s)) = true := by
      cases s with
      | nil => exact absurd rfl hs
      | cons c t => rfl
    have e : extractText u = .str s := by
      rw [extractText_eq_firstTruthy u hu, firstTruthy_of_index _ i _ hi ht hlt]; rfl
    rw [e]
    exact ⟨rfl, rfl⟩

/-- C6, instance: scenario A's payload carries its text in `choices[0].text`. -/
theorem C6_scenario_A_extraction :
    toStr (extractText scenarioAPayload) = some (lit "```json\n" ++ scenarioAJson ++ lit "\n```") :=
  ((C6_extraction_first_truthy scenarioAPayload).2.2 0 _ (fun t h => by cases h) rfl
    (by decide) (fun j hj => absurd hj (Nat.not_lt_zero j))).2

/-! ## Parsing and the answer -/

theorem parseBundle_none (t : JSString) (h1 : jsonParse t = none)
    (h2 : ∀ sp, braceSpan t = some sp → jsonParse sp = none) : parseBundle t = none := by
  unfold parseBundle
  rw [h1]
  cases hs : braceSpan t with
  | none => rfl
  | some sp => simp [h2 sp hs]

/-- C1, counterexample: the cleaned text `[]` has no brace at all, yet the handler
answers with the missing-markup error and no preview; the cleaned text `null` has none
either and the handler answers 500 from the outer `catch`. -/
theorem C1_braceless_json_is_not_invalid_output :
    cleanText (lit "[]") = lit "[]" ∧ braceSpan (lit "[]") = none ∧
    normalize (lit "[]") = ⟨502, .obj [(lit "error",
      .str (lit "Generated bundle missing index.html")), (lit "keys", .arr [])]⟩ ∧
    cleanText (lit "null") = lit "null" ∧ braceSpan (lit "null") = none ∧
    (normalize (lit "null")).status = 500 := by
  refine ⟨by decide, by decide, rfl, by decide, by decide, rfl⟩

/-- C1, amended: for every cleaned text that does not parse as JSON as a whole and
whose span from the first `{` to the last `}` does not exist or does not parse, the
answer is status 502 with the error `Model response not valid JSON` and, as
`model_text_preview`, the first 2000 code units of the text, so at most 2000 of them. -/
theorem C1_unparsable_text_gives_preview (t : JSString) (h1 : jsonParse t = none)
    (h2 : ∀ sp, braceSpan t = some sp → jsonParse sp = none) :
    normalize t = ⟨502, .obj [(lit "error", .str (lit "Model response not valid JSON")),
      (lit "model_text_preview", .str (t.take 2000))]⟩ ∧ (t.take 2000).length ≤ 2000 := by
  refine ⟨?_, by simp⟩
  unfold normalize
  rw [parseBundle_none t h1 h2]
  rfl

/-- C1, witness: prose around a brace span that is not JSON. -/
theorem C1_prose_witness :
    normalize proseText = ⟨502, .obj [(lit "error", .str (lit "Model response not valid JSON")),
      (lit "model_text_preview", .str (proseText.take 2000))]⟩ ∧
    (proseText.take 2000).length ≤ 2000 :=
  C1_unparsable_text_gives_preview proseText rfl (by
    intro sp h
    have e : braceSpan proseText = some (lit "\x7bnot json\x7d") := by decide
    rw [e] at h
    injection h with h
    subst h
    rfl)


theorem isStr_iff (v : JVal) : isStr v = true ↔ ∃ s, v = .str s := by
  cases v <;> simp [isStr]

/-- C2, counterexample: a block fenced twice loses one pair of fences per cleaning, so
cleaning the cleaned text changes it again. -/
theorem C2_nested_fences_not_idempotent :
    cleanText nestedFences = lit "```json\n\x7b\x7d\n```" ∧
    cleanText (cleanText nestedFences) = lit "\x7b\x7d" ∧
    cleanText (cleanText nestedFences) ≠ cleanText nestedFences := by
  refine ⟨by decide, by decide, by decide⟩

/-- C2, amended: cleaning an already cleaned text is a no-op exactly when the cleaned
text neither begins nor ends with three backticks; a text whose cleaned form still has
a fence at either end is changed by a second cleaning. -/
theorem C2_clean_twice_iff_no_fence_left (t : JSString) :
    cleanText (cleanText t) = cleanText t ↔
      ¬ fence <+: cleanText t ∧ ¬ fence <:+ cleanText t := by
  constructor
  · intro h
    by_contra hc
    have hf : fence <+: cleanText t ∨ fence <:+ cleanText t := by
      by_contra hn
      push_neg at hn
      exact hc hn
    have := cleanText_length_lt (cleanText t) (trim_cleanText t) hf
    rw [h] at this
    exact absurd this (lt_irrefl _)
  · rintro ⟨h1, h2⟩
    exact cleanText_of_no_fence (cleanText t) (trim_cleanText t) h1 h2

/-- C10, counterexample: with the language tag `html` the tag stays in the cleaned
text: only the tag `json` is removed with the opening fence. -/
theorem C10_other_tag_is_kept :
    trim (lit "\x7b\x7d") = lit "\x7b\x7d" ∧
    ¬ fence <+: lit "\x7b\x7d" ∧ ¬ fence <:+ lit "\x7b\x7d" ∧
    cleanText htmlTagged = lit "html\n\x7b\x7d" ∧ cleanText htmlTagged ≠ lit "\x7b\x7d" := by
  refine ⟨by decide, by decide, by decide, by decide, by decide⟩

/-- C10, amended: for every body `b` without leading or trailing whitespace and for
the language tag `g` empty or `json`, cleaning the text made of the opening fence, `g`,
a line feed, `b`, a line feed and the closing fence, with any whitespace around it,
yields exactly `b`; and cleaning a text whose trimmed form has no fence at either end
yields the trimmed form. -/
theorem C10_fence_markers_only (pre post g b : JSString)
    (hpre : ∀ c ∈ pre, isWhiteSpace c = true) (hpost : ∀ c ∈ post, isWhiteSpace c = true)
    (hg : g = [] ∨ g = jsonTag) (hb : trim b = b) :
    cleanText (pre ++ fence ++ g ++ [10] ++ b ++ [10] ++ fence ++ post) = b ∧
    (∀ t, ¬ fence <+: trim t → ¬ fence <:+ trim t → cleanText t = trim t) := by
  constructor
  · obtain ⟨hb1, hb2⟩ := (trim_eq_self_iff b).mp hb
    unfold cleanText
    have e0 : pre ++ fence ++ g ++ [10] ++ b ++ [10] ++ fence ++ post
        = pre ++ fence ++ (g ++ [10] ++ b ++ [10]) ++ fence ++ post := by simp
    rw [e0, trim_fenced pre post _ hpre hpost]
    have e1 : fence ++ (g ++ [10] ++ b ++ [10]) ++ fence
        = fence ++ g ++ [10] ++ (b ++ 10 :: fence) := by simp
    rw [e1, removeOpeningFence_fenced g _ hg]
    cases b with
    | nil =>
      have e2 : List.dropWhile isWhiteSpace ([] ++ 10 :: fence) = [] ++ fence := by decide
      rw [e2, removeClosingFence_append]
      rfl
    | cons c b' =>
      have hc : isWhiteSpace c = false := by
        by_contra hc
        simp only [Bool.not_eq_false] at hc
        have := (List.dropWhile_suffix (l := b') isWhiteSpace).length_le
        rw [List.dropWhile_cons_of_pos hc] at hb1
        rw [hb1] at this
        simp at this
      have e2 : List.dropWhile isWhiteSpace (c :: b' ++ 10 :: fence) = (c :: b' ++ [10]) ++ fence := by
        simp [hc]
      rw [e2, removeClosingFence_append]
      unfold trim
      have e3 : List.dropWhile isWhiteSpace (c :: b' ++ [10]) = c :: b' ++ [10] := by
        simp [hc]
      rw [e3, List.rdropWhile_concat_pos _ _ _ (by decide)]
      exact hb2
  · intro t h1 h2
    unfold cleanText
    rw [removeOpeningFence_unfenced _ h1, removeClosingFence_unfenced _ h2, trim_idem]


/-- C10, witness: the fenced text of scenario A cleans to the bare JSON object text. -/
theorem C10_scenario_A_witness :
    cleanText ([] ++ fence ++ jsonTag ++ [10] ++ scenarioAJson ++ [10] ++ fence ++ []) = scenarioAJson ∧
    (∀ t, ¬ fence <+: trim t → ¬ fence <:+ trim t → cleanText t = trim t) :=
  C10_fence_markers_only [] [] jsonTag scenarioAJson (by simp) (by simp) (Or.inr rfl) (by decide)


/-! ## Decimal numerals, printed and read back -/

theorem digitsVal_append_singleton (ds : List Nat) (d : Nat) :
    digitsVal (ds ++ [d]) = 10 * digitsVal ds + d := by
  simp [digitsVal]

theorem natDigitsAux_append (f n : Nat) (acc : List Nat) :
    natDigitsAux f n acc = natDigitsAux f n [] ++ acc := by
  induction f generalizing n acc with
  | zero => simp [natDigitsAux]
  | succ f ih =>
    unfold natDigitsAux
    split
    · simp
    · rw [ih (n / 10) (n % 10 :: acc), ih (n / 10) [n % 10]]
      simp

theorem keysCanonical_cons (k : JSString) (ks : List JSString) :
    keysCanonical (k :: ks) = true ↔
      k ∉ ks ∧ (∀ b ∈ ks, keyBefore k b = true) ∧ keysCanonical ks = true := by
  simp [keysCanonical, and_assoc]

theorem skipWs_length_le (t : JSString) : (skipWs t).length ≤ t.length :=
  (List.dropWhile_suffix _).length_le

theorem consChar_eq_some (c : Nat) (o : Option (JSString × JSString)) (k r : JSString)
    (h : consChar c o = some (k, r)) : ∃ k', o = some (k', r) ∧ k = c :: k' := by
  cases o with
  | none => simp [consChar] at h
  | some p =>
    obtain ⟨k', r'⟩ := p
    simp only [consChar, Option.some.injEq, Prod.mk.injEq] at h
    exact ⟨k', by rw [h.2], h.1.symm⟩

theorem parseChars_length : ∀ (n : Nat) (s k r : JSString), s.length ≤ n →
    parseChars s = some (k, r) → r.length < s.length := by
  intro n
  induction n with
  | zero =>
    intro s k r hs h
    have : s = [] := List.length_eq_zero.mp (Nat.le_zero.mp hs)
    subst this
    simp [parseChars] at h
  | succ n ih =>
    intro s k r hs h
    rw [parseChars.eq_def] at h
    split at h
    · exact absurd h (by simp)
    · rename_i c rest
      simp only [List.length_cons] at hs ⊢
      split at h
      · simp only [Option.some.injEq, Prod.mk.injEq] at h
        rw [← h.2]; omega
      · split at h
        · split at h
          · exact absurd h (by simp)
          · rename_i e rest2
            simp only [List.length_cons] at hs ⊢
            split at h
            · split at h
              · rename_i h1 h2 h3 h4 rest3
                simp only [List.length_cons] at hs ⊢
                split at h
                · obtain ⟨k', hk', _⟩ := consChar_eq_some _ _ _ _ h
                  have := ih rest3 k' r (by omega) hk'
                  omega
                · exact absurd h (by simp)
              · exact absurd h (by simp)
            · split at h
              · obtain ⟨k', hk', _⟩ := consChar_eq_some _ _ _ _ h
                have := ih rest2 k' r (by omega) hk'
                omega
              · exact absurd h (by simp)
        · split at h
          · exact absurd h (by simp)
          · obtain ⟨k', hk', _⟩ := consChar_eq_some _ _ _ _ h
            have := ih rest k' r (by omega) hk'
            omega

theorem readDigits_length (t r : JSString) (ds : List Nat) (h : readDigits t = some (ds, r)) :
    r.length < t.length := by
  unfold readDigits at h
  split at h
  · exact absurd h (by simp)
  · rename_i hne
    simp only [Option.some.injEq] at h
    have hlen := congrArg List.length (List.takeWhile_append_dropWhile isDigit t)
    simp only [List.length_append] at hlen
    have h2 : (spanDigits t).2 = r := by rw [h]
    have h1 : (spanDigits t).1 = ds := by rw [h]
    simp only [spanDigits] at h1 h2 hne
    rw [h2] at hlen
    have : 0 < (List.takeWhile isDigit t).length := by
      cases htk : List.takeWhile isDigit t with
      | nil => rw [htk] at hne; simp at hne
      | cons a l => simp
    omega

theorem parseInteger_length (t r : JSString) (ip : List Nat)
    (h : parseInteger t = some (ip, r)) : r.length < t.length := by
  unfold parseInteger at h
  split at h
  · exact absurd h (by simp)
  · rename_i c rest
    split at h
    · simp only [Option.some.injEq, Prod.mk.injEq] at h
      rw [← h.2]; simp
    · exact readDigits_length _ _ _ h

theorem parseFraction_length (t r : JSString) (fp : List Nat)
    (h : parseFraction t = some (fp, r)) : r.length ≤ t.length := by
  unfold parseFraction at h
  split at h
  · simp only [Option.some.injEq, Prod.mk.injEq] at h
    rw [← h.2]
  · rename_i c rest
    split at h
    · have := readDigits_length _ _ _ h
      simp only [List.length_cons]; omega
    · simp only [Option.some.injEq, Prod.mk.injEq] at h
      rw [← h.2]

theorem readDigits_map_length (t r : JSString) (ex : Int) (g : List Nat × JSString → Int)
    (h : (readDigits t).map (fun p => (g p, p.2)) = some (ex, r)) : r.length < t.length := by
  cases hr : readDigits t with
  | none => rw [hr] at h; simp at h
  | some p =>
    obtain ⟨ds, r'⟩ := p
    rw [hr] at h
    simp only [Option.map_some', Option.some.injEq, Prod.mk.injEq] at h
    have := readDigits_length t r' ds hr
    rw [← h.2]; exact this

theorem parseExponent_length (t r : JSString) (ex : Int)
    (h : parseExponent t = some (ex, r)) : r.length ≤ t.length := by
  unfold parseExponent at h
  split at h
  · simp only [Option.some.injEq, Prod.mk.injEq] at h
    rw [← h.2]
  · rename_i c rest
    split at h
    · split at h
      · exact absurd h (by simp)
      · rename_i s r2
        simp only [List.length_cons]
        split at h
        · have := readDigits_map_length r2 r ex (fun p => (digitsVal p.1 : Int)) h
          omega
        · split at h
          · have := readDigits_map_length r2 r ex (fun p => -(digitsVal p.1 : Int)) h
            omega
          · have := readDigits_map_length (s :: r2) r ex (fun p => (digitsVal p.1 : Int)) h
            simp only [List.length_cons] at this
            omega
    · simp only [Option.some.injEq, Prod.mk.injEq] at h
      rw [← h.2]

theorem parseUnsigned_length (neg : Bool) (t r : JSString) (x : JNum)
    (h : parseUnsigned neg t = some (x, r)) : r.length < t.length := by
  unfold parseUnsigned at h
  split at h
  · exact absurd h (by simp)
  · rename_i ip r1 h1
    split at h
    · exact absurd h (by simp)
    · rename_i fp r2 h2
      split at h
      · exact absurd h (by simp)
      · rename_i ex r3 h3
        simp only [Option.some.injEq, Prod.mk.injEq] at h
        have a := parseInteger_length _ _ _ h1
        have b := parseFraction_length _ _ _ h2
        have c := parseExponent_length _ _ _ h3
        rw [← h.2]; omega

theorem parseNumber_length (t r : JSString) (x : JNum) (h : parseNumber t = some (x, r)) :
    r.length < t.length := by
  unfold parseNumber at h
  split at h
  · exact absurd h (by simp)
  · rename_i c rest
    split at h
    · have := parseUnsigned_length _ _ _ _ h
      simp only [List.length_cons]; omega
    · exact parseUnsigned_length _ _ _ _ h

/-- A parse that succeeds with some bound consumes text, and succeeds with the same
result for every bound of at least twice the number of code units consumed. -/
theorem parse_bound_enough (f : Nat) :
    (∀ t v r, parseValue f t = some (v, r) → r.length < t.length ∧
      ∀ g, 2 * (t.length - r.length) ≤ g → parseValue g t = some (v, r)) ∧
    (∀ t xs r, parseElements f t = some (xs, r) → r.length < t.length ∧
      ∀ g, 2 * (t.length - r.length) + 1 ≤ g → parseElements g t = some (xs, r)) ∧
    (∀ t ms r, parseMembers f t = some (ms, r) → r.length < t.length ∧
      ∀ g, 2 * (t.length - r.length) + 1 ≤ g → parseMembers g t = some (ms, r)) := by
  induction f with
  | zero =>
    refine ⟨?_, ?_, ?_⟩ <;> intro t x r h
    · simp [parseValue] at h
    · simp [parseElements] at h
    · simp [parseMembers] at h
  | succ f ih =>
    obtain ⟨ihV, ihE, ihM⟩ := ih
    refine ⟨?_, ?_, ?_⟩
    · intro t v r h
      cases t with
      | nil => simp [parseValue] at h
      | cons c rest =>
        by_cases h123 : c = 123
        · subst h123
          simp only [parseValue, if_true] at h
          have hws := skipWs_length_le rest
          split at h
          · exact absurd h (by simp)
          · rename_i d r0 hsk
            rw [hsk] at hws
            simp only [List.length_cons] at hws ⊢
            split at h
            · rename_i hd
              simp only [Option.some.injEq, Prod.mk.injEq] at h
              obtain ⟨rfl, rfl⟩ := h
              refine ⟨by omega, ?_⟩
              intro g hg
              obtain ⟨g', rfl⟩ : ∃ g', g = g' + 1 := ⟨g - 1, by omega⟩
              simp only [parseValue, if_true, hsk, if_pos hd]
            · rename_i hd
              split at h
              · rename_i ms r2 hm
                simp only [Option.some.injEq, Prod.mk.injEq] at h
                obtain ⟨rfl, rfl⟩ := h
                obtain ⟨hl, hg2⟩ := ihM _ _ _ hm
                simp only [List.length_cons] at hl
                refine ⟨by omega, ?_⟩
                intro g hg
                obtain ⟨g', rfl⟩ : ∃ g', g = g' + 1 := ⟨g - 1, by omega⟩
                simp only [parseValue, if_true, hsk, if_neg hd]
                rw [hg2 g' (by simp only [List.length_cons]; omega)]
              · exact absurd h (by simp)
        by_cases h91 : c = 91
        · subst h91
          simp only [parseValue, if_neg h123, if_true] at h
          have hws := skipWs_length_le rest
          split at h
          · exact absurd h (by simp)
          · rename_i d r0 hsk
            rw [hsk] at hws
            simp only [List.length_cons] at hws ⊢
            split at h
            · rename_i hd
              simp only [Option.some.injEq, Prod.mk.injEq] at h
              obtain ⟨rfl, rfl⟩ := h
              refine ⟨by omega, ?_⟩
              intro g hg
              obtain ⟨g', rfl⟩ : ∃ g', g = g' + 1 := ⟨g - 1, by omega⟩
              simp only [parseValue, if_neg h123, if_true, hsk, if_pos hd]
            · rename_i hd
              split at h
              · rename_i xs r2 hm
                simp only [Option.some.injEq, Prod.mk.injEq] at h
                obtain ⟨rfl, rfl⟩ := h
                obtain ⟨hl, hg2⟩ := ihE _ _ _ hm
                simp only [List.length_cons] at hl
                refine ⟨by omega, ?_⟩
                intro g hg
                obtain ⟨g', rfl⟩ : ∃ g', g = g' + 1 := ⟨g - 1, by omega⟩
                simp only [parseValue, if_neg h123, if_true, hsk, if_neg hd]
                rw [hg2 g' (by simp only [List.length_cons]; omega)]
              · exact absurd h (by simp)
        · have hsame : ∀ g', parseValue (g' + 1) (c :: rest) = parseValue (f + 1) (c :: rest) := by
            intro g'
            simp only [parseValue, if_neg h123, if_neg h91]
          have hlen : r.length < (c :: rest).length := by
            simp only [parseValue, if_neg h123, if_neg h91] at h
            split at h
            · split at h
              · rename_i s r1 hs
                simp only [Option.some.injEq, Prod.mk.injEq] at h
                have := parseChars_length rest.length rest s r1 (le_refl _) hs
                rw [← h.2]; simp only [List.length_cons]; omega
              · exact absurd h (by simp)
            · split at h
              · simp only [Option.some.injEq, Prod.mk.injEq] at h
                rw [← h.2]; simp; omega
              · split at h
                · simp only [Option.some.injEq, Prod.mk.injEq] at h
                  rw [← h.2]; simp; omega
                · split at h
                  · simp only [Option.some.injEq, Prod.mk.injEq] at h
                    rw [← h.2]; simp; omega
                  · split at h
                    · rename_i x r1 hn
                      simp only [Option.some.injEq, Prod.mk.injEq] at h
                      have := parseNumber_length _ _ _ hn
                      rw [← h.2]; exact this
                    · exact absurd h (by simp)
          refine ⟨hlen, ?_⟩
          intro g hg
          obtain ⟨g', rfl⟩ : ∃ g', g = g' + 1 := ⟨g - 1, by omega⟩
          rw [hsame g', h]
    · intro t xs r h
      simp only [parseElements] at h
      split at h
      · exact absurd h (by simp)
      · rename_i x r1 hv
        obtain ⟨hl1, hg1⟩ := ihV _ _ _ hv
        have hws := skipWs_length_le r1
        split at h
        · exact absurd h (by simp)
        · rename_i d r2 hsk
          rw [hsk] at hws
          simp only [List.length_cons] at hws
          split at h
          · rename_i hd
            have hws2 := skipWs_length_le r2
            split at h
            · rename_i ys r3 he
              simp only [Option.some.injEq, Prod.mk.injEq] at h
              obtain ⟨rfl, rfl⟩ := h
              obtain ⟨hl2, hg2⟩ := ihE _ _ _ he
              refine ⟨by omega, ?_⟩
              intro g hg
              obtain ⟨g', rfl⟩ : ∃ g', g = g' + 1 := ⟨g - 1, by omega⟩
              simp only [parseElements]
              rw [hg1 g' (by omega)]
              simp only [hsk, if_pos hd]
              rw [hg2 g' (by omega)]
            · exact absurd h (by simp)
          · rename_i hd
            split at h
            · rename_i hd2
              simp only [Option.some.injEq, Prod.mk.injEq] at h
              obtain ⟨rfl, rfl⟩ := h
              refine ⟨by omega, ?_⟩
              intro g hg
              obtain ⟨g', rfl⟩ : ∃ g', g = g' + 1 := ⟨g - 1, by omega⟩
              simp only [parseElements]
              rw [hg1 g' (by omega)]
              simp only [hsk, if_neg hd, if_pos hd2]
            · exact absurd h (by simp)
    · intro t ms r h
      simp only [parseMembers] at h
      split at h
      · exact absurd h (by simp)
      · rename_i q r0
        split at h
        · rename_i hq
          split at h
          · exact absurd h (by simp)
          · rename_i k r1 hk
            have hlk := parseChars_length r0.length r0 k r1 (le_refl _) hk
            have hws1 := skipWs_length_le r1
            split at h
            · exact absurd h (by simp)
            · rename_i p r2 hsk1
              rw [hsk1] at hws1
              simp only [List.length_cons] at hws1
              split at h
              · rename_i hp
                have hws2 := skipWs_length_le r2
                split at h
                · exact absurd h (by simp)
                · rename_i v r3 hv
                  obtain ⟨hl1, hg1⟩ := ihV _ _ _ hv
                  have hws3 := skipWs_length_le r3
                  split at h
                  · exact absurd h (by simp)
                  · rename_i d r4 hsk3
                    rw [hsk3] at hws3
                    simp only [List.length_cons] at hws3 ⊢
                    split at h
                    · rename_i hd
                      have hws4 := skipWs_length_le r4
                      split at h
                      · rename_i ns r5 hm
                        simp only [Option.some.injEq, Prod.mk.injEq] at h
                        obtain ⟨rfl, rfl⟩ := h
                        obtain ⟨hl2, hg2⟩ := ihM _ _ _ hm
                        refine ⟨by omega, ?_⟩
                        intro g hg
                        obtain ⟨g', rfl⟩ : ∃ g', g = g' + 1 := ⟨g - 1, by omega⟩
                        simp only [parseMembers, if_pos hq, hk, hsk1, if_pos hp]
                        rw [hg1 g' (by omega)]
                        simp only [hsk3, if_pos hd]
                        rw [hg2 g' (by omega)]
                      · exact absurd h (by simp)
                    · rename_i hd
                      split at h
                      · rename_i hd2
                        simp only [Option.some.injEq, Prod.mk.injEq] at h
                        obtain ⟨rfl, rfl⟩ := h
                        refine ⟨by omega, ?_⟩
                        intro g hg
                        obtain ⟨g', rfl⟩ : ∃ g', g = g' + 1 := ⟨g - 1, by omega⟩
                        simp only [parseMembers, if_pos hq, hk, hsk1, if_pos hp]
                        rw [hg1 g' (by omega)]
                        simp only [hsk3, if_neg hd, if_pos hd2]
                      · exact absurd h (by simp)
              · exact absurd h (by simp)
        · exact absurd h (by simp)

/-- The function `jsonParse` returns a value exactly when the parser, with any bound
at all, reads a value that is followed by whitespace only: the bound it passes loses
nothing. -/
theorem jsonParse_iff (t : JSString) (v : JVal) :
    jsonParse t = some v ↔
      ∃ f r, parseValue f (skipWs t) = some (v, r) ∧ (skipWs r).isEmpty = true := by
  constructor
  · intro h
    unfold jsonParse at h
    split at h
    · rename_i w r hp
      split at h
      · rename_i hr
        simp only [Option.some.injEq] at h
        subst h
        exact ⟨_, r, hp, hr⟩
      · exact absurd h (by simp)
    · exact absurd h (by simp)
  · rintro ⟨f, r, hp, hr⟩
    obtain ⟨_, hg⟩ := (parse_bound_enough f).1 _ _ _ hp
    have hws := skipWs_length_le t
    unfold jsonParse
    rw [hg (2 * t.length + 2) (by omega)]
    simp only [hr, if_true]

/-! ## Every value `JSON.parse` returns is well formed -/

theorem natDigitsAux_fuel (f g n : Nat) (hf : n < f) (hg : n < g) :
    natDigitsAux f n [] = natDigitsAux g n [] := by
  induction f generalizing g n with
  | zero => omega
  | succ f ih =>
    obtain ⟨g', rfl⟩ : ∃ g', g = g' + 1 := ⟨g - 1, by omega⟩
    unfold natDigitsAux
    split
    · rfl
    · rw [natDigitsAux_append f, natDigitsAux_append g', ih g' (n / 10) (by omega) (by omega)]

theorem natDigits_small (d : Nat) (h : d < 10) : natDigits d = [d] := by
  unfold natDigits natDigitsAux
  rw [if_pos h]

theorem natDigits_step (n : Nat) (h : 10 ≤ n) :
    natDigits n = natDigits (n / 10) ++ [n % 10] := by
  unfold natDigits
  rw [natDigitsAux.eq_def]
  simp only
  rw [if_neg (by omega), natDigitsAux_append,
    natDigitsAux_fuel n (n / 10 + 1) (n / 10) (by omega) (by omega)]

/-- A numeral without a superfluous leading zero is the numeral of its value. -/
theorem natDigits_digitsVal (ds : List Nat) (hne : ds ≠ []) (hlt : ∀ d ∈ ds, d < 10)
    (hz : ds = [0] ∨ ds.head? ≠ some 0) : natDigits (digitsVal ds) = ds := by
  induction ds using List.reverseRecOn with
  | nil => exact absurd rfl hne
  | append_singleton l d ih =>
    have hd : d < 10 := hlt d (by simp)
    rw [digitsVal_append_singleton]
    cases l with
    | nil =>
      simp only [digitsVal, List.foldl_nil, Nat.mul_zero, Nat.zero_add, List.nil_append]
      exact natDigits_small d hd
    | cons a l =>
      have hzl : (a :: l).head? ≠ some 0 := by
        rcases hz with hz | hz
        · have := congrArg List.length hz
          simp at this
        · simpa using hz
      have iha := ih (by simp) (fun x hx => hlt x (List.mem_append_left _ hx)) (Or.inr hzl)
      have hpos : 0 < digitsVal (a :: l) := by
        by_contra hc
        have h0 : digitsVal (a :: l) = 0 := by omega
        rw [h0] at iha
        have : natDigits 0 = [0] := natDigits_small 0 (by decide)
        rw [this] at iha
        rw [← iha] at hzl
        exact hzl rfl
      rw [natDigits_step _ (by omega)]
      have e1 : (10 * digitsVal (a :: l) + d) / 10 = digitsVal (a :: l) := by omega
      have e2 : (10 * digitsVal (a :: l) + d) % 10 = d := by omega
      rw [e1, e2, iha]

/-- Two array-index keys with the same index are the same key. -/
theorem arrayIndex_inj (a b : JSString) (i : Nat) (ha : arrayIndex? a = some i)
    (hb : arrayIndex? b = some i) : a = b := by
  have key : ∀ k : JSString, arrayIndex? k = some i →
      k.map (· - 48) = natDigits i ∧ ∀ c ∈ k, isDigit c = true := by
    intro k hk
    unfold arrayIndex? at hk
    split at hk
    · rename_i hc
      simp only [Bool.and_eq_true, List.all_eq_true, Bool.not_eq_true', Bool.or_eq_true,
        beq_iff_eq, bne_iff_ne, ne_eq] at hc
      obtain ⟨⟨hall, hne⟩, hz⟩ := hc
      simp only at hk
      split at hk
      · simp only [Option.some.injEq] at hk
        refine ⟨?_, hall⟩
        rw [← hk]
        symm
        apply natDigits_digitsVal
        · intro e
          have : k = [] := by simpa using e
          rw [this] at hne
          simp at hne
        · intro d hd
          simp only [List.mem_map] at hd
          obtain ⟨c, hc, rfl⟩ := hd
          have := hall c hc
          simp only [isDigit, Bool.and_eq_true, decide_eq_true_eq] at this
          omega
        · rcases hz with hz | hz
          · left; rw [hz]; rfl
          · right
            cases k with
            | nil => simp
            | cons c k =>
              simp only [List.head?_cons, Option.some.injEq] at hz
              simp only [List.map_cons, List.head?_cons, ne_eq, Option.some.injEq]
              have := hall c (by simp)
              simp only [isDigit, Bool.and_eq_true, decide_eq_true_eq] at this
              omega
      · exact absurd hk (by simp)
    · exact absurd hk (by simp)
  obtain ⟨ea, da⟩ := key a ha
  obtain ⟨eb, db⟩ := key b hb
  have hmap : a.map (· - 48) = b.map (· - 48) := by rw [ea, eb]
  have hinj : ∀ (x y : JSString), (∀ c ∈ x, isDigit c = true) → (∀ c ∈ y, isDigit c = true) →
      x.map (· - 48) = y.map (· - 48) → x = y := by
    intro x
    induction x with
    | nil =>
      intro y _ _ h
      cases y with
      | nil => rfl
      | cons c y => simp at h
    | cons c x ih =>
      intro y hx hy h
      cases y with
      | nil => simp at h
      | cons d y =>
        simp only [List.map_cons, List.cons.injEq] at h
        have hc := hx c (by simp)
        have hd := hy d (by simp)
        simp only [isDigit, Bool.and_eq_true, decide_eq_true_eq] at hc hd
        have : c = d := by omega
        rw [this, ih y (fun z hz => hx z (by simp [hz])) (fun z hz => hy z (by simp [hz])) h.2]
  exact hinj a b da db hmap

theorem replaceProp_keys (k : JSString) (v : JVal) (kvs : List (JSString × JVal)) :
    (replaceProp k v kvs).map Prod.fst = kvs.map Prod.fst := by
  induction kvs with
  | nil => rfl
  | cons p kvs ih =>
    obtain ⟨k2, v2⟩ := p
    unfold replaceProp
    split
    · simp
    · simp [ih]

theorem mem_replaceProp (k : JSString) (v : JVal) (kvs : List (JSString × JVal))
    (p : JSString × JVal) (h : p ∈ replaceProp k v kvs) : p = (k, v) ∨ p ∈ kvs := by
  induction kvs with
  | nil => simp [replaceProp] at h
  | cons q kvs ih =>
    obtain ⟨k2, v2⟩ := q
    unfold replaceProp at h
    split at h
    · rename_i hk
      simp only [List.mem_cons] at h ⊢
      rcases h with h | h
      · left; rw [h, hk]
      · right; right; exact h
    · simp only [List.mem_cons] at h ⊢
      rcases h with h | h
      · right; left; exact h
      · rcases ih h with h | h
        · left; exact h
        · right; right; exact h

theorem mem_insertIndexed (i : Nat) (k : JSString) (v : JVal) (kvs : List (JSString × JVal))
    (p : JSString × JVal) : p ∈ insertIndexed i k v kvs ↔ p = (k, v) ∨ p ∈ kvs := by
  induction kvs with
  | nil => simp [insertIndexed]
  | cons q kvs ih =>
    obtain ⟨k2, v2⟩ := q
    unfold insertIndexed
    split
    · split
      · simp only [List.mem_cons, ih]; tauto
      · simp only [List.mem_cons]
    · simp only [List.mem_cons]

theorem keysCanonical_snoc (keys : List JSString) (k : JSString)
    (hc : keysCanonical keys = true) (hk : k ∉ keys) (hb : ∀ a ∈ keys, keyBefore a k = true) :
    keysCanonical (keys ++ [k]) = true := by
  induction keys with
  | nil => simp [keysCanonical]
  | cons a keys ih =>
    rw [keysCanonical_cons] at hc
    obtain ⟨h1, h2, h3⟩ := hc
    rw [List.cons_append, keysCanonical_cons]
    refine ⟨?_, ?_, ih h3 (fun h => hk (by simp [h])) (fun x hx => hb x (by simp [hx]))⟩
    · intro h
      simp only [List.mem_append, List.mem_singleton] at h
      rcases h with h | h
      · exact h1 h
      · exact hk (by simp [h])
    · intro b hbm
      simp only [List.mem_append, List.mem_singleton] at hbm
      rcases hbm with hbm | rfl
      · exact h2 b hbm
      · exact hb a (by simp)

theorem insertIndexed_canonical (i : Nat) (k : JSString) (v : JVal)
    (kvs : List (JSString × JVal)) (hi : arrayIndex? k = some i)
    (hk : k ∉ kvs.map Prod.fst) (hc : keysCanonical (kvs.map Prod.fst) = true) :
    keysCanonical ((insertIndexed i k v kvs).map Prod.fst) = true := by
  induction kvs with
  | nil => simp [insertIndexed, keysCanonical]
  | cons q kvs ih =>
    obtain ⟨k2, v2⟩ := q
    simp only [List.map_cons, List.mem_cons, not_or] at hk
    simp only [List.map_cons] at hc
    rw [keysCanonical_cons] at hc
    obtain ⟨h1, h2, h3⟩ := hc
    have hfresh : k ∉ k2 :: kvs.map Prod.fst := by
      simp only [List.mem_cons, not_or]; exact hk
    unfold insertIndexed
    cases hj : arrayIndex? k2 with
    | some j =>
      simp only
      by_cases hlt : j < i
      · rw [if_pos hlt]
        simp only [List.map_cons]
        rw [keysCanonical_cons]
        refine ⟨?_, ?_, ih hk.2 h3⟩
        · intro hm
          simp only [List.mem_map] at hm
          obtain ⟨p, hp, hpk⟩ := hm
          rcases (mem_insertIndexed i k v kvs p).mp hp with rfl | hp
          · exact hk.1 hpk
          · exact h1 (by rw [← hpk]; exact List.mem_map_of_mem _ hp)
        · intro b hbm
          simp only [List.mem_map] at hbm
          obtain ⟨p, hp, rfl⟩ := hbm
          rcases (mem_insertIndexed i k v kvs p).mp hp with rfl | hp
          · simp [keyBefore, hi, hj, hlt]
          · exact h2 _ (List.mem_map_of_mem _ hp)
      · rw [if_neg hlt]
        have hne : j ≠ i := by
          intro e
          subst e
          exact hk.1 (arrayIndex_inj k k2 j hi hj)
        simp only [List.map_cons]
        rw [keysCanonical_cons]
        refine ⟨hfresh, ?_, by rw [keysCanonical_cons]; exact ⟨h1, h2, h3⟩⟩
        intro b hbm
        simp only [List.mem_cons] at hbm
        rcases hbm with rfl | hbm
        · simp only [keyBefore, hi, hj, decide_eq_true_eq]; omega
        · have hb2 := h2 b hbm
          unfold keyBefore at hb2 ⊢
          cases hbi : arrayIndex? b with
          | none => rfl
          | some j2 =>
            rw [hbi] at hb2
            simp only [hi, hj, decide_eq_true_eq] at hb2 ⊢
            omega
    | none =>
      simp only [List.map_cons]
      rw [keysCanonical_cons]
      refine ⟨hfresh, ?_, by rw [keysCanonical_cons]; exact ⟨h1, h2, h3⟩⟩
      intro b hbm
      simp only [List.mem_cons] at hbm
      rcases hbm with rfl | hbm
      · simp [keyBefore, hj]
      · have hb2 := h2 b hbm
        unfold keyBefore at hb2 ⊢
        cases hbi : arrayIndex? b with
        | none => rfl
        | some j2 =>
          rw [hbi] at hb2
          simp [hj] at hb2

/-- Defining a property keeps the keys distinct and in order. -/
theorem setProp_canonical (kvs : List (JSString × JVal)) (k : JSString) (v : JVal)
    (hc : keysCanonical (kvs.map Prod.fst) = true) :
    keysCanonical ((setProp kvs k v).map Prod.fst) = true := by
  unfold setProp
  split
  · rw [replaceProp_keys]; exact hc
  · rename_i hany
    have hk : k ∉ kvs.map Prod.fst := by
      intro hm
      simp only [List.mem_map] at hm
      obtain ⟨p, hp, hpk⟩ := hm
      apply hany
      rw [List.any_eq_true]
      exact ⟨p, hp, by simp [hpk]⟩
    cases hi : arrayIndex? k with
    | some i => exact insertIndexed_canonical i k v kvs hi hk hc
    | none =>
      simp only [List.map_append, List.map_cons, List.map_nil]
      apply keysCanonical_snoc _ _ hc hk
      intro a _
      simp [keyBefore, hi]

theorem mem_setProp (kvs : List (JSString × JVal)) (k : JSString) (v : JVal)
    (p : JSString × JVal) (h : p ∈ setProp kvs k v) : p = (k, v) ∨ p ∈ kvs := by
  unfold setProp at h
  split at h
  · exact mem_replaceProp k v kvs p h
  · split at h
    · exact (mem_insertIndexed _ k v kvs p).mp h
    · simp only [List.mem_append, List.mem_singleton] at h
      tauto

theorem wellFormedMembers_iff (kvs : List (JSString × JVal)) :
    wellFormedMembers kvs = true ↔ ∀ p ∈ kvs, wellFormed p.2 = true := by
  induction kvs with
  | nil => simp [wellFormedMembers]
  | cons q kvs ih =>
    obtain ⟨k, v⟩ := q
    simp [wellFormedMembers, ih]

theorem wellFormedList_iff (xs : List JVal) :
    wellFormedList xs = true ↔ ∀ x ∈ xs, wellFormed x = true := by
  induction xs with
  | nil => simp [wellFormedList]
  | cons x xs ih => simp [wellFormedList, ih]

/-- The object built from members with well-formed values is well formed. -/
theorem mkObject_wellFormed (ms : List (JSString × JVal))
    (h : ∀ p ∈ ms, wellFormed p.2 = true) : wellFormed (mkObject ms) = true := by
  have key : ∀ (ms acc : List (JSString × JVal)), (∀ p ∈ ms, wellFormed p.2 = true) →
      keysCanonical (acc.map Prod.fst) = true → (∀ p ∈ acc, wellFormed p.2 = true) →
      keysCanonical ((ms.foldl (fun a p => setProp a p.1 p.2) acc).map Prod.fst) = true ∧
        ∀ p ∈ ms.foldl (fun a p => setProp a p.1 p.2) acc, wellFormed p.2 = true := by
    intro ms
    induction ms with
    | nil => intro acc _ hc hw; exact ⟨hc, hw⟩
    | cons q ms ih =>
      intro acc hms hc hw
      simp only [List.foldl_cons]
      apply ih
      · intro p hp; exact hms p (by simp [hp])
      · exact setProp_canonical acc q.1 q.2 hc
      · intro p hp
        rcases mem_setProp acc q.1 q.2 p hp with rfl | hp
        · exact hms q (by simp)
        · exact hw p hp
  obtain ⟨h1, h2⟩ := key ms [] h rfl (by simp)
  unfold mkObject
  simp only [wellFormed, Bool.and_eq_true]
  exact ⟨h1, (wellFormedMembers_iff _).mpr h2⟩

theorem classify_wf (neg : Bool) (ds : List Nat) (n : Int) (hne : ds ≠ [])
    (hlt : ∀ d ∈ ds, d < 10) (hhead : ds.head? ≠ some 0) (hlast : ds.getLast? ≠ some 0) :
    (classify neg ds n).wf = true := by
  have hfin : ∀ (h : classify neg ds n = .fin neg ds n), (classify neg ds n).wf = true := by
    intro h
    rw [h]
    simp only [JNum.wf, Bool.and_eq_true, Bool.not_eq_true', List.all_eq_true,
      decide_eq_true_eq, bne_iff_ne, ne_eq, beq_iff_eq]
    refine ⟨⟨⟨⟨?_, hlt⟩, hhead⟩, hlast⟩, h⟩
    cases ds with
    | nil => exact absurd rfl hne
    | cons d ds => rfl
  by_cases c1 : n < -400
  · have : classify neg ds n = .zero := by simp [classify, c1]
    rw [this]; rfl
  by_cases c2 : 400 < n
  · have : classify neg ds n = .inf neg := by simp [classify, c1, c2]
    rw [this]; rfl
  by_cases c3 : roundsToZero (digitsVal ds) (n - ds.length) = true
  · have : classify neg ds n = .zero := by simp [classify, c1, c2, c3]
    rw [this]; rfl
  by_cases c4 : roundsToInf (digitsVal ds) (n - ds.length) = true
  · have : classify neg ds n = .inf neg := by simp [classify, c1, c2, c3, c4]
    rw [this]; rfl
  exact hfin (by simp [classify, c1, c2, c3, c4])

theorem mkNumber_wf (neg : Bool) (ip fp : List Nat) (ex : Int)
    (h : ∀ d ∈ ip ++ fp, d < 10) : (mkNumber neg ip fp ex).wf = true := by
  unfold mkNumber
  simp only
  split
  · rfl
  · rename_i hne
    have hsuf : (ip ++ fp).dropWhile (· == 0) <:+ ip ++ fp := List.dropWhile_suffix _
    have hpre : ((ip ++ fp).dropWhile (· == 0)).rdropWhile (· == 0)
        <+: (ip ++ fp).dropWhile (· == 0) := List.rdropWhile_prefix _ _
    cases hd : (ip ++ fp).dropWhile (· == 0) with
    | nil => rw [hd] at hne; simp at hne
    | cons a l =>
      have ha : a ≠ 0 := by
        have := List.head?_dropWhile_not (· == 0) (ip ++ fp)
        rw [hd] at this
        simpa using this
      rw [hd] at hpre hsuf
      have hnil : (a :: l).rdropWhile (· == 0) ≠ [] := by
        intro e
        rw [List.rdropWhile_eq_nil_iff] at e
        have := e a (by simp)
        simp at this
        exact ha this
      apply classify_wf
      · exact hnil
      · intro d hd2
        exact h d (hsuf.subset (hpre.subset hd2))
      · obtain ⟨r, hr⟩ := hpre
        cases hx : (a :: l).rdropWhile (· == 0) with
        | nil => exact absurd hx hnil
        | cons b m =>
          rw [hx] at hr
          simp only [List.cons_append, List.cons.injEq] at hr
          simp only [List.head?_cons, ne_eq, Option.some.injEq]
          rw [hr.1]; exact ha
      · intro e
        have hl := List.rdropWhile_last_not (· == 0) (a :: l) hnil
        rw [List.getLast?_eq_getLast _ hnil] at e
        simp only [Option.some.injEq] at e
        rw [e] at hl
        simp at hl

theorem readDigits_lt (t r : JSString) (ds : List Nat) (h : readDigits t = some (ds, r)) :
    ∀ d ∈ ds, d < 10 := by
  unfold readDigits at h
  split at h
  · exact absurd h (by simp)
  · simp only [Option.some.injEq] at h
    have h1 : (spanDigits t).1 = ds := by rw [h]
    simp only [spanDigits] at h1
    intro d hd
    rw [← h1] at hd
    simp only [List.mem_map] at hd
    obtain ⟨c, hc, rfl⟩ := hd
    have := List.mem_takeWhile_imp hc
    simp only [isDigit, Bool.and_eq_true, decide_eq_true_eq] at this
    omega

theorem parseNumber_wf (t r : JSString) (x : JNum) (h : parseNumber t = some (x, r)) :
    x.wf = true := by
  have key : ∀ neg t, parseUnsigned neg t = some (x, r) → x.wf = true := by
    intro neg t h
    unfold parseUnsigned at h
    split at h
    · exact absurd h (by simp)
    · rename_i ip r1 h1
      split at h
      · exact absurd h (by simp)
      · rename_i fp r2 h2
        split at h
        · exact absurd h (by simp)
        · rename_i ex r3 h3
          simp only [Option.some.injEq, Prod.mk.injEq] at h
          rw [← h.1]
          apply mkNumber_wf
          have hip : ∀ d ∈ ip, d < 10 := by
            unfold parseInteger at h1
            split at h1
            · exact absurd h1 (by simp)
            · split at h1
              · simp only [Option.some.injEq, Prod.mk.injEq] at h1
                rw [← h1.1]; simp
              · exact readDigits_lt _ _ _ h1
          have hfp : ∀ d ∈ fp, d < 10 := by
            unfold parseFraction at h2
            split at h2
            · simp only [Option.some.injEq, Prod.mk.injEq] at h2
              rw [← h2.1]; simp
            · split at h2
              · exact readDigits_lt _ _ _ h2
              · simp only [Option.some.injEq, Prod.mk.injEq] at h2
                rw [← h2.1]; simp
          intro d hd
          simp only [List.mem_append] at hd
          rcases hd with hd | hd
          · exact hip d hd
          · exact hfp d hd
  unfold parseNumber at h
  split at h
  · exact absurd h (by simp)
  · split at h
    · exact key _ _ h
    · exact key _ _ h

theorem parse_wellFormed (f : Nat) :
    (∀ t v r, parseValue f t = some (v, r) → wellFormed v = true) ∧
    (∀ t xs r, parseElements f t = some (xs, r) → ∀ x ∈ xs, wellFormed x = true) ∧
    (∀ t ms r, parseMembers f t = some (ms, r) → ∀ p ∈ ms, wellFormed p.2 = true) := by
  induction f with
  | zero =>
    refine ⟨?_, ?_, ?_⟩ <;> intro t x r h
    · simp [parseValue] at h
    · simp [parseElements] at h
    · simp [parseMembers] at h
  | succ f ih =>
    obtain ⟨ihV, ihE, ihM⟩ := ih
    refine ⟨?_, ?_, ?_⟩
    · intro t v r h
      simp only [parseValue] at h
      split at h
      · exact absurd h (by simp)
      · split at h
        · split at h
          · exact absurd h (by simp)
          · split at h
            · simp only [Option.some.injEq, Prod.mk.injEq] at h
              rw [← h.1]; rfl
            · split at h
              · rename_i ms r2 hm
                simp only [Option.some.injEq, Prod.mk.injEq] at h
                rw [← h.1]
                exact mkObject_wellFormed ms (ihM _ _ _ hm)
              · exact absurd h (by simp)
        · split at h
          · split at h
            · exact absurd h (by simp)
            · split at h
              · simp only [Option.some.injEq, Prod.mk.injEq] at h
                rw [← h.1]; rfl
              · split at h
                · rename_i xs r2 he
                  simp only [Option.some.injEq, Prod.mk.injEq] at h
                  rw [← h.1]
                  simp only [wellFormed]
                  exact (wellFormedList_iff xs).mpr (ihE _ _ _ he)
                · exact absurd h (by simp)
          · split at h
            · split at h
              · simp only [Option.some.injEq, Prod.mk.injEq] at h
                rw [← h.1]; rfl
              · exact absurd h (by simp)
            · split at h
              · simp only [Option.some.injEq, Prod.mk.injEq] at h
                rw [← h.1]; rfl
              · split at h
                · simp only [Option.some.injEq, Prod.mk.injEq] at h
                  rw [← h.1]; rfl
                · split at h
                  · simp only [Option.some.injEq, Prod.mk.injEq] at h
                    rw [← h.1]; rfl
                  · split at h
                    · rename_i x r1 hn
                      simp only [Option.some.injEq, Prod.mk.injEq] at h
                      rw [← h.1]
                      simp only [wellFormed]
                      exact parseNumber_wf _ _ _ hn
                    · exact absurd h (by simp)
    · intro t xs r h
      simp only [parseElements] at h
      split at h
      · exact absurd h (by simp)
      · rename_i x r1 hv
        split at h
        · exact absurd h (by simp)
        · split at h
          · split at h
            · rename_i ys r3 he
              simp only [Option.some.injEq, Prod.mk.injEq] at h
              rw [← h.1]
              intro y hy
              simp only [List.mem_cons] at hy
              rcases hy with rfl | hy
              · exact ihV _ _ _ hv
              · exact ihE _ _ _ he y hy
            · exact absurd h (by simp)
          · split at h
            · simp only [Option.some.injEq, Prod.mk.injEq] at h
              rw [← h.1]
              intro y hy
              simp only [List.mem_singleton] at hy
              rw [hy]
              exact ihV _ _ _ hv
            · exact absurd h (by simp)
    · intro t ms r h
      simp only [parseMembers] at h
      split at h
      · exact absurd h (by simp)
      · split at h
        · split at h
          · exact absurd h (by simp)
          · split at h
            · exact absurd h (by simp)
            · split at h
              · split at h
                · exact absurd h (by simp)
                · rename_i v r3 hv
                  split at h
                  · exact absurd h (by simp)
                  · split at h
                    · split at h
                      · rename_i ns r5 hm
                        simp only [Option.some.injEq, Prod.mk.injEq] at h
                        rw [← h.1]
                        intro y hy
                        simp only [List.mem_cons] at hy
                        rcases hy with rfl | hy
                        · exact ihV _ _ _ hv
                        · exact ihM _ _ _ hm y hy
                      · exact absurd h (by simp)
                    · split at h
                      · simp only [Option.some.injEq, Prod.mk.injEq] at h
                        rw [← h.1]
                        intro y hy
                        simp only [List.mem_singleton] at hy
                        rw [hy]
                        exact ihV _ _ _ hv
                      · exact absurd h (by simp)
              · exact absurd h (by simp)
        · exact absurd h (by simp)

/-- Every value `JSON.parse` returns is well formed. -/
theorem jsonParse_wellFormed (t : JSString) (v : JVal) (h : jsonParse t = some v) :
    wellFormed v = true := by
  unfold jsonParse at h
  split at h
  · rename_i w r hp
    split at h
    · simp only [Option.some.injEq] at h
      subst h
      exact (parse_wellFormed _).1 _ _ _ hp
    · exact absurd h (by simp)
  · exact absurd h (by simp)

/-! ## A payload of no known shape -/

theorem jsonCopy_of_scalar (v : JVal) (h1 : ∀ xs, v ≠ .arr xs) (h2 : ∀ kvs, v ≠ .obj kvs)
    (h3 : ∀ neg, v ≠ .num (.inf neg)) : jsonCopy v = v := by
  cases v with
  | null => rfl
  | bool b => rfl
  | num x =>
    cases x with
    | zero => rfl
    | fin neg ds n => rfl
    | inf neg => exact absurd rfl (h3 neg)
  | str s => rfl
  | arr xs => exact absurd rfl (h1 xs)
  | obj kvs => exact absurd rfl (h2 kvs)

end Rebuild
